import Mathlib

/-!
A verification development for the `savemem` bounded-cache container engine
(`savemem.py`: class `LowMemContainer` and its adapters).

Modelling conventions:

* Python `dict`s are modelled as insertion-ordered association lists with
  unique keys (`Dict K V`).  `dinsert` overwrites an existing key in place
  (keeping its position) and appends a fresh key at the end, `derase` removes a
  key, and lookup scans left to right — all matching CPython dict semantics.
* The key codec (`_encode_key` / `_decode_key`, a pickle round-trip in the
  source) is modelled as an opaque pair of functions `Codec.enc : K → S` and
  `Codec.dec : S → K`; theorems that need it assume injectivity of `enc` or
  that `dec` inverts `enc`, both of which hold for the pickle round-trip.
* `time.time()` values are modelled as caller-supplied `Nat` timestamps
  (`now` arguments); only their ordering is ever consulted by the engine.
* The single background worker (`self._flush_thread` running `_do_flush`) is
  modelled by the `pending` slot holding the dict that was handed to the
  worker.  The worker's drain is performed at the join point inside
  `waitForFlush`: since the foreground only ever reads the shelf, the deferred
  error slot, or the worker handle after synchronizing, this sequentialization
  is observationally faithful.  An interrupted join (`interrupt=True`, from
  `clear`/`close`) resolves the race by letting the worker stop before
  draining any further item, a schedule the real system admits.
* Store faults (for the deferred-error protocol) are injected through a
  `f : K → Option Nat` parameter: `f k = some code` makes the worker's write of
  key `k` fail with fault `storeFault code` during a drain.
* Each operation returns, besides the successor state, the Python exception it
  raises (if any) and the list of thread events (`spawn` of a worker thread /
  `join` of an outstanding worker thread) it performs, in order.
-/

namespace Savemem

section Model

variable {K S V : Type} [DecidableEq K] [DecidableEq S]

/-- Insertion-ordered association list standing for a Python `dict`. -/
abbrev Dict (K V : Type) := List (K × V)

/-- Lookup: first entry whose key matches (keys are unique in well-formed dicts). -/
def dlookup (d : Dict K V) (k : K) : Option V :=
  match d with
  | [] => none
  | (k', v) :: rest => if k' = k then some v else dlookup rest k

/-- Python `key in d`. -/
def dmem (d : Dict K V) (k : K) : Bool := (dlookup d k).isSome

/-- Python `d[k] = v`: overwrite in place if present, else append at the end. -/
def dinsert (d : Dict K V) (k : K) (v : V) : Dict K V :=
  match d with
  | [] => [(k, v)]
  | (k', v') :: rest => if k' = k then (k', v) :: rest else (k', v') :: dinsert rest k v

/-- Python `del d[k]` / `d.pop(k)` (the removal part). -/
def derase (d : Dict K V) (k : K) : Dict K V :=
  match d with
  | [] => []
  | (k', v') :: rest => if k' = k then rest else (k', v') :: derase rest k

/-- The keys of a dict, in insertion order. -/
def keysOf (d : Dict K V) : List K := d.map Prod.fst

/-- Well-formedness of a dict: its keys are pairwise distinct. -/
def NodupKeys (d : Dict K V) : Prop := (keysOf d).Nodup

/-- First option that is `some`, i.e. `a` shadowing `b`. -/
def ofirst (a b : Option V) : Option V :=
  match a with
  | some v => some v
  | none => b

/-- Python `min(recency, key=recency.get)`: the first entry (in dict order)
carrying the minimal value; `none` exactly when the dict is empty (where the
source raises `ValueError`). -/
def minEntry (d : Dict K Nat) : Option (K × Nat) :=
  match d with
  | [] => none
  | (k, t) :: rest =>
    match minEntry rest with
    | none => some (k, t)
    | some (k', t') => if t ≤ t' then some (k, t) else some (k', t')

/-- The Python exceptions the engine and the sequence adapter can raise, plus
an injected store fault used to exercise the deferred-error protocol. -/
inductive Err (K : Type) where
  | keyNotFound (k : K)
  | valueError
  | indexError (i : Int)
  | unsupported
  | storeFault (code : Nat)
  deriving DecidableEq

/-- Thread events: starting a flush worker thread, joining an outstanding one. -/
inductive Ev where
  | spawn
  | join
  deriving DecidableEq

/-- The key codec: `enc` models `_encode_key`, `dec` models `_decode_key`. -/
structure Codec (K S : Type) where
  enc : K → S
  dec : S → K

/-- The state of one `LowMemContainer` instance.  Field-by-field:
`shelf` is the persistent store contents (`self._shelf`, keyed by encoded
keys), `isOpen` is `self._open`, `cacheLimit` is `self._cache_limit`, `cache`
is `self._cache`, `length` is `self._length`, `recency` is `self._recency`,
`pending` is the dict owned by the live flush worker (`self._flush_thread`;
`none` when no worker is outstanding), `stopFlushing` is
`self._stop_flushing`, `flushException` is `self._flush_exception` and
`hasFlushed` is `self._has_flushed`. -/
structure Engine (K S V : Type) where
  shelf : Dict S V
  isOpen : Bool
  cacheLimit : Nat
  cache : Dict K V
  length : Int
  recency : Dict K Nat
  pending : Option (Dict K V)
  stopFlushing : Bool
  flushException : Option (Err K)
  hasFlushed : Bool
  deriving DecidableEq

/-- A fault-free backing store. -/
def noFaults : K → Option Nat := fun _ => none

/-- A fresh, empty container with the given cache limit (the state built by
`__init__` with no seed items, before its trailing flush check). -/
def mkEngine (limit : Nat) : Engine K S V :=
  { shelf := [], isOpen := true, cacheLimit := limit, cache := [], length := 0,
    recency := [], pending := none, stopFlushing := false, flushException := none,
    hasFlushed := false }

/-- One pass of the worker body `_do_flush` over the job's items.  The source
pops items with `dict.popitem()` (last-inserted first), hence the caller feeds
this the reversed item list; each write may fault per the injected `f`, and a
fault abandons the remainder (the `except` clause captures it). -/
def drainRev (f : K → Option Nat) (c : Codec K S) :
    Dict S V → List (K × V) → Dict S V × Option (Err K)
  | shelf, [] => (shelf, none)
  | shelf, (k, v) :: rest =>
    match f k with
    | some code => (shelf, some (Err.storeFault code))
    | none => drainRev f c (dinsert shelf (c.enc k) v) rest

/-- `_do_flush(cache)`: move the job's contents into the shelf, `popitem` order
(last-inserted first); a fault is captured, not raised, and the rest of the
job is abandoned. -/
def doFlush (f : K → Option Nat) (c : Codec K S) (shelf : Dict S V) (job : Dict K V) :
    Dict S V × Option (Err K) :=
  drainRev f c shelf job.reverse

/-- `_wait_for_flush(interrupt)`: set the stop signal if interrupting, join any
outstanding worker (here: materialize its drain, unless it was told to stop,
in which case it discards its remainder), clear the worker handle, reset the
stop signal, and raise (return) the deferred error, clearing the slot. -/
def waitForFlush (f : K → Option Nat) (c : Codec K S) (interrupt : Bool) (s : Engine K S V) :
    Engine K S V × Option (Err K) × List Ev :=
  let stop := interrupt || s.stopFlushing
  let joinEv : List Ev := if s.pending.isSome then [Ev.join] else []
  let drained : Dict S V × Option (Err K) :=
    match s.pending with
    | none => (s.shelf, none)
    | some job => if stop then (s.shelf, none) else doFlush f c s.shelf job
  let slot : Option (Err K) :=
    match s.flushException with
    | some e => some e
    | none => drained.2
  ({ s with shelf := drained.1, pending := none, stopFlushing := false,
            flushException := none },
   slot, joinEv)

/-- Result of the victim-selection loop inside `_partial_flush`. -/
structure SelOut (K V : Type) where
  cache : Dict K V
  recency : Dict K Nat
  toFlush : Dict K V
  err : Option (Err K)
  deriving DecidableEq

/-- The selection loop of `_partial_flush`: `n` times, pop the key with the
minimal recency value out of `cache`/`recency` into the accumulator.  The
error cases mirror `min()` on an empty dict (`ValueError`) and `cache.pop` of
a key absent from the cache (`KeyError`); both are unreachable while the cache
and recency dicts carry the same key set. -/
def selectLoop : Nat → Dict K V → Dict K Nat → Dict K V → SelOut K V
  | 0, cache, rec, acc => ⟨cache, rec, acc, none⟩
  | n + 1, cache, rec, acc =>
    match minEntry rec with
    | none => ⟨cache, rec, acc, some Err.valueError⟩
    | some (k, _) =>
      match dlookup cache k with
      | none => ⟨cache, rec, acc, some (Err.keyNotFound k)⟩
      | some v => selectLoop n (derase cache k) (derase rec k) (dinsert acc k v)

/-- `_partial_flush`: if the cache is nonempty, wait for any outstanding
worker (only when `_has_flushed`), detach the `len(cache) - cache_limit // 4`
least-recently-touched entries (selected through the recency dict), and hand
them to a fresh worker, marking `_has_flushed`.  An exception from the wait
propagates; nothing is spawned when the selection count is zero or negative. -/
def partFlush (f : K → Option Nat) (c : Codec K S) (s : Engine K S V) :
    Engine K S V × Option (Err K) × List Ev :=
  if s.cache.isEmpty then (s, none, [])
  else
    let w := if s.hasFlushed then waitForFlush f c false s else (s, none, [])
    match w.2.1 with
    | some e => (w.1, some e, w.2.2)
    | none =>
      let s1 := w.1
      let n := s1.cache.length - s1.cacheLimit / 4
      let sel := selectLoop n s1.cache s1.recency []
      match sel.err with
      | some e => ({ s1 with cache := sel.cache, recency := sel.recency }, some e, w.2.2)
      | none =>
        if sel.toFlush.isEmpty then
          ({ s1 with cache := sel.cache, recency := sel.recency }, none, w.2.2)
        else
          ({ s1 with cache := sel.cache, recency := sel.recency,
                     hasFlushed := true, pending := some sel.toFlush },
           none, w.2.2 ++ [Ev.spawn])

/-- `_flush_one`: wait (or mark `_has_flushed`), pop the single least-recent
entry, and hand it to a fresh worker.  Dead code in the source (never called),
modelled because the single-flight discipline quantifies over it. -/
def flushOne (f : K → Option Nat) (c : Codec K S) (s : Engine K S V) :
    Engine K S V × Option (Err K) × List Ev :=
  if s.cache.isEmpty then (s, none, [])
  else
    let w := if s.hasFlushed then waitForFlush f c false s
             else ({ s with hasFlushed := true }, none, [])
    match w.2.1 with
    | some e => (w.1, some e, w.2.2)
    | none =>
      let s1 := w.1
      match minEntry s1.recency with
      | none => (s1, some Err.valueError, w.2.2)
      | some (k, _) =>
        match dlookup s1.cache k with
        | none => (s1, some (Err.keyNotFound k), w.2.2)
        | some v =>
          ({ s1 with cache := derase s1.cache k, recency := derase s1.recency k,
                     pending := some [(k, v)] },
           none, w.2.2 ++ [Ev.spawn])

/-- `flush(synchronous, exclusions=None)`: wait for any outstanding worker (or
mark `_has_flushed`), detach the whole cache, hand it to a fresh worker, and,
when synchronous, immediately wait for that worker. -/
def flushOp (f : K → Option Nat) (c : Codec K S) (synchronous : Bool) (s : Engine K S V) :
    Engine K S V × Option (Err K) × List Ev :=
  if s.cache.isEmpty then (s, none, [])
  else
    let w := if s.hasFlushed then waitForFlush f c false s
             else ({ s with hasFlushed := true }, none, [])
    match w.2.1 with
    | some e => (w.1, some e, w.2.2)
    | none =>
      let s1 := w.1
      let job := s1.cache
      let s2 := { s1 with cache := [], recency := [], pending := some job }
      if synchronous then
        let w2 := waitForFlush f c false s2
        (w2.1, w2.2.1, w.2.2 ++ [Ev.spawn] ++ w2.2.2)
      else
        (s2, none, w.2.2 ++ [Ev.spawn])

/-- `_set(key, value)`: overwrite in place when cache-resident (refreshing the
recency stamp), else spill through `_partial_flush` when the resident count
reaches the limit, then insert and bump `_length`. -/
def setOp (f : K → Option Nat) (c : Codec K S) (now : Nat) (k : K) (v : V)
    (s : Engine K S V) : Engine K S V × Option (Err K) × List Ev :=
  if dmem s.cache k then
    ({ s with cache := dinsert s.cache k v, recency := dinsert s.recency k now }, none, [])
  else
    let w := if s.cacheLimit ≤ s.cache.length then partFlush f c s else (s, none, [])
    match w.2.1 with
    | some e => (w.1, some e, w.2.2)
    | none =>
      ({ w.1 with cache := dinsert w.1.cache k v, recency := dinsert w.1.recency k now,
                  length := w.1.length + 1 },
       none, w.2.2)

/-- `_get(key)`: a cache hit refreshes recency and returns; otherwise (only
once `_has_flushed`) synchronize, read the shelf (`KeyError` when absent),
spill via `_partial_flush` if the cache is full, and move the fetched entry
into the cache.  When `_has_flushed` is false a cache miss is a plain
`KeyError` from `self._cache[key]`. -/
def getOp (f : K → Option Nat) (c : Codec K S) (now : Nat) (k : K) (s : Engine K S V) :
    Engine K S V × Except (Err K) V × List Ev :=
  if s.hasFlushed && !(dmem s.cache k) then
    let w := waitForFlush f c false s
    match w.2.1 with
    | some e => (w.1, Except.error e, w.2.2)
    | none =>
      match dlookup w.1.shelf (c.enc k) with
      | none => (w.1, Except.error (Err.keyNotFound k), w.2.2)
      | some v =>
        let p := if w.1.cacheLimit ≤ w.1.cache.length then partFlush f c w.1
                 else (w.1, none, [])
        match p.2.1 with
        | some e => (p.1, Except.error e, w.2.2 ++ p.2.2)
        | none =>
          ({ p.1 with cache := dinsert p.1.cache k v, recency := dinsert p.1.recency k now },
           Except.ok v, w.2.2 ++ p.2.2)
  else
    match dlookup s.cache k with
    | none => (s, Except.error (Err.keyNotFound k), [])
    | some v => ({ s with recency := dinsert s.recency k now }, Except.ok v, [])

/-- `_del(key)`: once `_has_flushed`, drop the cache entry if present,
synchronize, then delete from the shelf — a `KeyError` from the shelf is
swallowed only when the key had been found in the cache, else it is re-raised;
an emptied shelf resets `_has_flushed`.  Before any flush, plain
`del self._cache[key]` (note: the source does not touch `self._recency` on
this path).  `_length` is decremented on every non-raising path. -/
def delOp (f : K → Option Nat) (c : Codec K S) (k : K) (s : Engine K S V) :
    Engine K S V × Option (Err K) × List Ev :=
  if s.hasFlushed then
    let found := dmem s.cache k
    let s0 := if found then
                { s with cache := derase s.cache k, recency := derase s.recency k }
              else s
    let w := waitForFlush f c false s0
    match w.2.1 with
    | some e => (w.1, some e, w.2.2)
    | none =>
      let s1 := w.1
      if dmem s1.shelf (c.enc k) then
        let s2 := { s1 with shelf := derase s1.shelf (c.enc k) }
        let s3 := if s2.shelf.isEmpty then { s2 with hasFlushed := false } else s2
        ({ s3 with length := s3.length - 1 }, none, w.2.2)
      else if found then
        let s3 := if s1.shelf.isEmpty then { s1 with hasFlushed := false } else s1
        ({ s3 with length := s3.length - 1 }, none, w.2.2)
      else
        (s1, some (Err.keyNotFound k), w.2.2)
  else
    match dlookup s.cache k with
    | none => (s, some (Err.keyNotFound k), [])
    | some _ => ({ s with cache := derase s.cache k, length := s.length - 1 }, none, [])

/-- `__contains__`: a cache hit refreshes recency; else, once `_has_flushed`,
synchronize and probe the shelf; else `False`. -/
def containsOp (f : K → Option Nat) (c : Codec K S) (now : Nat) (k : K) (s : Engine K S V) :
    Engine K S V × Except (Err K) Bool × List Ev :=
  if dmem s.cache k then
    ({ s with recency := dinsert s.recency k now }, Except.ok true, [])
  else if s.hasFlushed then
    let w := waitForFlush f c false s
    match w.2.1 with
    | some e => (w.1, Except.error e, w.2.2)
    | none => (w.1, Except.ok (dmem w.1.shelf (c.enc k)), w.2.2)
  else
    (s, Except.ok false, [])

/-- `__iter__`: once `_has_flushed`, synchronize and yield the decoded shelf
keys; before any flush, yield the cache keys (`iter(self._cache)`). -/
def iterOp (f : K → Option Nat) (c : Codec K S) (s : Engine K S V) :
    Engine K S V × Except (Err K) (List K) × List Ev :=
  if s.hasFlushed then
    let w := waitForFlush f c false s
    match w.2.1 with
    | some e => (w.1, Except.error e, w.2.2)
    | none => (w.1, Except.ok ((keysOf w.1.shelf).map c.dec), w.2.2)
  else
    (s, Except.ok (keysOf s.cache), [])

/-- `__len__`: the tracked `self._length`, returned unconditionally. -/
def lenOp (s : Engine K S V) : Int := s.length

/-- `clear()`: empty the cache and recency dicts; if `_has_flushed`, interrupt
and join the worker (its undrained remainder is discarded), empty the shelf,
and reset `_has_flushed`; finally zero `_length`. -/
def clearOp (f : K → Option Nat) (c : Codec K S) (s : Engine K S V) :
    Engine K S V × Option (Err K) × List Ev :=
  let s0 := { s with cache := ([] : Dict K V), recency := ([] : Dict K Nat) }
  if s0.hasFlushed then
    let w := waitForFlush f c true s0
    match w.2.1 with
    | some e => (w.1, some e, w.2.2)
    | none =>
      ({ w.1 with shelf := [], hasFlushed := false, length := 0 }, none, w.2.2)
  else
    ({ s0 with length := 0 }, none, [])

/-- `close()`: a no-op when already closed; else interrupt and join any
worker, release the shelf and the in-memory dicts (the source also sets the
released fields to `None`; the model keeps them as emptied structures), and
mark the container closed.  Note the source leaves `self._length` untouched. -/
def closeOp (f : K → Option Nat) (c : Codec K S) (s : Engine K S V) :
    Engine K S V × Option (Err K) × List Ev :=
  if !s.isOpen then (s, none, [])
  else
    let w := waitForFlush f c true s
    match w.2.1 with
    | some e => (w.1, some e, w.2.2)
    | none =>
      ({ w.1 with shelf := [], cache := [], recency := [], isOpen := false }, none, w.2.2)

/-- `__init__(*args)`: open an empty shelf, seed the cache, set `_length`,
leave `_recency` empty, and spill through `_partial_flush` when the seed
already reaches the limit. -/
def initContainer (f : K → Option Nat) (c : Codec K S) (limit : Nat) (seed : Dict K V) :
    Engine K S V × Option (Err K) × List Ev :=
  let s : Engine K S V :=
    { shelf := [], isOpen := true, cacheLimit := limit, cache := seed,
      length := (seed.length : Int), recency := [], pending := none,
      stopFlushing := false, flushException := none, hasFlushed := false }
  if limit ≤ seed.length then partFlush f c s else (s, none, [])

/-- Observable snapshot of the engine at the moment `flush(exclusions=...)`
starts its worker thread. -/
structure ExclFlushSnapshot (K V : Type) where
  engineCache : Dict K V
  engineRecency : Dict K Nat
  workerJob : Dict K V
  sameDict : Bool
  deriving DecidableEq

/-- The loop `for key in exclusions: self._cache[key] = cache.pop(key);
self._recency[key] = recency.pop(key)` from `flush`.  Because `cache` aliases
`self._cache`, each iteration pops the key out of the one shared dict and
re-appends it at the end; the recency entry moves from the saved old dict into
the freshly rebound `self._recency`.  A missing key raises `KeyError` (the
model's error path drops the partial mutations, which no settled claim
exercises). -/
def exclLoop : List K → Dict K V → Dict K Nat → Dict K Nat →
    Except (Err K) (Dict K V × Dict K Nat)
  | [], cache, _oldRec, newRec => Except.ok (cache, newRec)
  | k :: ks, cache, oldRec, newRec =>
    match dlookup cache k, dlookup oldRec k with
    | some v, some t =>
      exclLoop ks (dinsert (derase cache k) k v) (derase oldRec k) (dinsert newRec k t)
    | _, _ => Except.error (Err.keyNotFound k)

/-- The public `flush` up to the moment the worker thread is started, with the
post-spawn snapshot made explicit.  In the exclusions branch of the source,
`cache = self._cache` and the loop assigns back into `self._cache`, which is
never rebound to a new dict: the dict handed to `_do_flush` is the engine's
own cache object, still holding every entry (exclusion keys merely moved to
the end); `sameDict` records that aliasing fact.  With no exclusions the
source rebinds `self._cache = {}`, so the worker's job is exclusively owned
(`sameDict = false`). -/
def flushExclSpawn (f : K → Option Nat) (c : Codec K S) (excl : List K) (s : Engine K S V) :
    Option (ExclFlushSnapshot K V) × Option (Err K) :=
  if s.cache.isEmpty then (none, none)
  else
    let w := if s.hasFlushed then waitForFlush f c false s
             else ({ s with hasFlushed := true }, none, [])
    match w.2.1 with
    | some e => (none, some e)
    | none =>
      let s1 := w.1
      if excl.isEmpty then
        (some { engineCache := [], engineRecency := [], workerJob := s1.cache,
                sameDict := false }, none)
      else
        match exclLoop excl s1.cache s1.recency [] with
        | Except.error e => (none, some e)
        | Except.ok r =>
          (some { engineCache := r.1, engineRecency := r.2, workerJob := r.1,
                  sameDict := true }, none)

/-- `LowMemList._convert_index`: normalize a possibly negative index against
the current length, raising `IndexError` (with the normalized index, as the
source reassigns `index` before raising) when out of range. -/
def convertIndex (s : Engine Int S V) (index : Int) : Except (Err Int) Int :=
  let len := s.length
  let index1 := if index < 0 then index + len else index
  if 0 ≤ index1 ∧ index1 < len then Except.ok index1 else Except.error (Err.indexError index1)

/-- `LowMemList.insert`: convert the index first (which raises `IndexError`
for any index outside `[0, len)` — including `index == len`), then either
append via `_set` or raise `NotImplementedError` (the spec's
`UnsupportedOperation`). -/
def listInsert (f : Int → Option Nat) (c : Codec Int S) (now : Nat) (index : Int) (v : V)
    (s : Engine Int S V) : Engine Int S V × Option (Err Int) × List Ev :=
  match convertIndex s index with
  | Except.error e => (s, some e, [])
  | Except.ok i =>
    if i = s.length then setOp f c now i v s
    else (s, some Err.unsupported, [])

/-- `LowMemList.__delitem__` for integer keys: only the last index is
deletable; any other in-range index raises `NotImplementedError`. -/
def listDelItem (f : Int → Option Nat) (c : Codec Int S) (index : Int)
    (s : Engine Int S V) : Engine Int S V × Option (Err Int) × List Ev :=
  match convertIndex s index with
  | Except.error e => (s, some e, [])
  | Except.ok i =>
    if i = s.length - 1 then delOp f c i s
    else (s, some Err.unsupported, [])

/-- The index sequence `range(hi, lo - 1, -1)`, i.e. `hi, hi-1, …, lo`. -/
def downRange (hi lo : Int) : List Int :=
  (List.range (hi + 1 - lo).toNat).map (fun j => hi - (j : Int))

/-- The deletion loop of `LowMemList.trim`: attempt `_del` on each index in
turn, stopping at (and propagating) the first exception; also reports which
indices were successfully deleted, in order. -/
def trimLoop (f : Int → Option Nat) (c : Codec Int S) :
    List Int → Engine Int S V → Engine Int S V × Option (Err Int) × List Int
  | [], s => (s, none, [])
  | i :: rest, s =>
    let d := delOp f c i s
    match d.2.1 with
    | some e => (d.1, some e, [])
    | none =>
      let r := trimLoop f c rest d.1
      (r.1, r.2.1, i :: r.2.2)

/-- `LowMemList.trim(length)`: delete indices `len-1` down to `length`, in
strictly descending order. -/
def listTrim (f : Int → Option Nat) (c : Codec Int S) (n : Int) (s : Engine Int S V) :
    Engine Int S V × Option (Err Int) × List Int :=
  trimLoop f c (downRange (s.length - 1) n) s

/-- One public (or flush-starting internal) operation, with its parameters. -/
inductive OpC (K V : Type) where
  | setc (now : Nat) (k : K) (v : V)
  | getc (now : Nat) (k : K)
  | delc (k : K)
  | containsc (now : Nat) (k : K)
  | iterc
  | flushc (synchronous : Bool)
  | partFlushc
  | flushOnec
  | clearc
  | closec

/-- Run one operation, keeping the successor state, the raised exception (if
any) and the thread-event trace. -/
def runOp (f : K → Option Nat) (c : Codec K S) :
    OpC K V → Engine K S V → Engine K S V × Option (Err K) × List Ev
  | OpC.setc now k v, s => setOp f c now k v s
  | OpC.getc now k, s =>
    let r := getOp f c now k s
    (r.1, (match r.2.1 with | Except.ok _ => none | Except.error e => some e), r.2.2)
  | OpC.delc k, s => delOp f c k s
  | OpC.containsc now k, s =>
    let r := containsOp f c now k s
    (r.1, (match r.2.1 with | Except.ok _ => none | Except.error e => some e), r.2.2)
  | OpC.iterc, s =>
    let r := iterOp f c s
    (r.1, (match r.2.1 with | Except.ok _ => none | Except.error e => some e), r.2.2)
  | OpC.flushc b, s => flushOp f c b s
  | OpC.partFlushc, s => partFlush f c s
  | OpC.flushOnec, s => flushOne f c s
  | OpC.clearc, s => clearOp f c s
  | OpC.closec, s => closeOp f c s

/-- Number of live worker threads encoded in the state (0 or 1). -/
def aliveCount (s : Engine K S V) : Nat := if s.pending.isSome then 1 else 0

/-- A thread-event trace respects the single-flight discipline when, starting
from `a` live workers, every `spawn` happens at a moment with zero live
workers (a `join` brings the count back to zero). -/
def singleFlightOk : Nat → List Ev → Bool
  | _, [] => true
  | a, Ev.spawn :: es => (a == 0) && singleFlightOk (a + 1) es
  | _, Ev.join :: es => singleFlightOk 0 es

/-- States reachable from a fresh container through the modelled operations. -/
inductive Reach (f : K → Option Nat) (c : Codec K S) (limit : Nat) :
    Engine K S V → Prop where
  | base : Reach f c limit (mkEngine limit)
  | step {s : Engine K S V} (op : OpC K V) :
      Reach f c limit s → Reach f c limit (runOp f c op s).1

/-- The most recently set value for `k` in a chronological list of
`(now, key, value)` set calls. -/
def lastVal : List (Nat × K × V) → K → Option V
  | [], _ => none
  | (_, k', v') :: rest, k =>
    match lastVal rest k with
    | some w => some w
    | none => if k = k' then some v' else none

/-- Run a chronological list of `(now, key, value)` set calls. -/
def runSets (f : K → Option Nat) (c : Codec K S) :
    List (Nat × K × V) → Engine K S V → Engine K S V
  | [], s => s
  | (now, k, v) :: rest, s => runSets f c rest (setOp f c now k v s).1

/-- Append a key if unseen (tracks the cache's key list along fresh inserts). -/
def addSeen (ks : List K) (k : K) : List K := if k ∈ ks then ks else ks ++ [k]

/-- The distinct keys of a run of set calls, in order of first occurrence,
starting from an initial key list. -/
def seenFrom (ks : List K) : List (Nat × K × V) → List K
  | [] => ks
  | (_, k, _) :: rest => seenFrom (addSeen ks k) rest

/-- The value the container associates to `k`, reading the cache first, then
the job owned by an outstanding worker, then the shelf — the resolution order
the engine's own synchronize-then-read discipline realizes. -/
def view (c : Codec K S) (s : Engine K S V) (k : K) : Option V :=
  ofirst (dlookup s.cache k)
    (match s.pending with
     | some job => ofirst (dlookup job k) (dlookup s.shelf (c.enc k))
     | none => dlookup s.shelf (c.enc k))

/-- The structural invariants every reachable state of a fault-free,
set/get-driven run maintains. -/
structure WF (c : Codec K S) (s : Engine K S V) : Prop where
  cacheNodup : NodupKeys s.cache
  recNodup : NodupKeys s.recency
  shelfNodup : NodupKeys s.shelf
  pendNodup : ∀ job, s.pending = some job → NodupKeys job
  agree : ∀ k, dmem s.cache k = dmem s.recency k
  pendFlushed : s.pending.isSome = true → s.hasFlushed = true
  noExc : s.flushException = none
  noStop : s.stopFlushing = false
  notFlushedEmpty : s.hasFlushed = false → s.shelf = [] ∧ s.pending = none

/-- Worker-slot discipline: a live worker implies `_has_flushed`. -/
def InvSF (s : Engine K S V) : Prop := s.pending.isSome = true → s.hasFlushed = true

end Model

section Fixtures

-- Concrete instances used in the theorems below.

/-- A codec on `Fin 2` keys (store keys are naturals). -/
def c2 : Codec (Fin 2) Nat :=
  { enc := Fin.val, dec := fun m => if h : m < 2 then ⟨m, h⟩ else ⟨0, by omega⟩ }

/-- A codec on `Fin 4` keys. -/
def c4 : Codec (Fin 4) Nat :=
  { enc := Fin.val, dec := fun m => if h : m < 4 then ⟨m, h⟩ else ⟨0, by omega⟩ }

/-- A codec on `Fin 9` keys. -/
def c9 : Codec (Fin 9) Nat :=
  { enc := Fin.val, dec := fun m => if h : m < 9 then ⟨m, h⟩ else ⟨0, by omega⟩ }

/-- A codec on integer keys (used by the sequence adapter). -/
def cInt : Codec Int Nat := { enc := Int.toNat, dec := Int.ofNat }

/-- A run of four set calls with `cache_limit = 2`: the third set evicts the
whole resident pair (limit 2 means `cache_limit // 4 = 0` entries are kept),
and the fourth re-sets an already-evicted key. -/
def opsC2 : List (Nat × Fin 4 × Nat) := [(0, 0, 10), (1, 1, 11), (2, 2, 12), (3, 0, 20)]

/-- Nine distinct sets with timestamps increasing alongside the keys, against
`cache_limit = 8` (so the ninth set triggers `_partial_flush`). -/
def ops9 : List (Nat × Fin 9 × Nat) :=
  [(0, 0, 100), (1, 1, 101), (2, 2, 102), (3, 3, 103), (4, 4, 104),
   (5, 5, 105), (6, 6, 106), (7, 7, 107), (8, 8, 108)]

/-- The same nine sets with the timestamps reversed, so different keys are the
least recently touched. -/
def ops9r : List (Nat × Fin 9 × Nat) :=
  [(8, 0, 100), (7, 1, 101), (6, 2, 102), (5, 3, 103), (4, 4, 104),
   (3, 5, 105), (2, 6, 106), (1, 7, 107), (0, 8, 108)]

/-- A four-entry resident state exactly at its limit of 4, for exercising
`_partial_flush` directly. -/
def sPF : Engine (Fin 4) Nat Nat :=
  { shelf := [], isOpen := true, cacheLimit := 4,
    cache := [(0, 10), (1, 11), (2, 12), (3, 13)], length := 4,
    recency := [(0, 0), (1, 1), (2, 2), (3, 3)], pending := none,
    stopFlushing := false, flushException := none, hasFlushed := false }

/-- The engine after `set(0, 1)` followed by a synchronous `flush()`:
`_has_flushed` is set, the store holds key 0, and the cache is empty. -/
def sF : Engine (Fin 2) Nat Nat :=
  (flushOp noFaults c2 true ((setOp noFaults c2 0 0 1 (mkEngine 10)).1)).1

/-- The engine after setting two distinct keys (no flush triggered). -/
def sC : Engine (Fin 2) Nat Nat :=
  (setOp noFaults c2 1 1 11 ((setOp noFaults c2 0 0 10 (mkEngine 100)).1)).1

/-- A three-element sequence-adapter state (indices 0..2 resident). -/
def sL3 : Engine Int Nat Nat :=
  { shelf := [], isOpen := true, cacheLimit := 100,
    cache := [(0, 10), (1, 11), (2, 12)], length := 3,
    recency := [(0, 0), (1, 1), (2, 2)], pending := none,
    stopFlushing := false, flushException := none, hasFlushed := false }

/-- A two-entry resident state used to exercise `flush(exclusions=...)`. -/
def sX : Engine (Fin 2) Nat Nat :=
  { shelf := [], isOpen := true, cacheLimit := 100,
    cache := [(0, 10), (1, 20)], length := 2,
    recency := [(0, 3), (1, 4)], pending := none,
    stopFlushing := false, flushException := none, hasFlushed := false }

/-- Fault injection: the store write of key 0 fails with fault code 7. -/
def f1 : Fin 2 → Option Nat := fun k => if k = 0 then some 7 else none

/-- The engine after a single `set(0, 11)` (key 0 resident, no flush yet). -/
def sOne : Engine (Fin 2) Nat Nat := (setOp noFaults c2 0 0 11 (mkEngine 10)).1

end Fixtures

section DictLemmas

variable {K S V : Type} [DecidableEq K] [DecidableEq S]

theorem dlookup_dinsert_self (d : Dict K V) (k : K) (v : V) :
    dlookup (dinsert d k v) k = some v := by
  induction d with
  | nil => simp [dinsert, dlookup]
  | cons p rest ih =>
    obtain ⟨k', v'⟩ := p
    by_cases h : k' = k
    · simp [dinsert, dlookup, h]
    · simp [dinsert, dlookup, h, ih]

theorem dlookup_dinsert_ne (d : Dict K V) (k : K) (v : V) (k0 : K) (h : k0 ≠ k) :
    dlookup (dinsert d k v) k0 = dlookup d k0 := by
  induction d with
  | nil => simp [dinsert, dlookup, Ne.symm h]
  | cons p rest ih =>
    obtain ⟨k', v'⟩ := p
    by_cases h' : k' = k
    · subst h'
      simp [dinsert, dlookup, Ne.symm h]
    · simp only [dinsert, if_neg h', dlookup]
      by_cases h'' : k' = k0 <;> simp [h'', ih]

theorem dlookup_derase_ne (d : Dict K V) (k k0 : K) (h : k0 ≠ k) :
    dlookup (derase d k) k0 = dlookup d k0 := by
  induction d with
  | nil => simp [derase]
  | cons p rest ih =>
    obtain ⟨k', v'⟩ := p
    by_cases h' : k' = k
    · subst h'
      simp [derase, dlookup, Ne.symm h]
    · simp only [derase, if_neg h', dlookup]
      by_cases h'' : k' = k0 <;> simp [h'', ih]

theorem dlookup_eq_none (d : Dict K V) (k : K) (h : k ∉ keysOf d) :
    dlookup d k = none := by
  induction d with
  | nil => simp [dlookup]
  | cons p rest ih =>
    obtain ⟨k', v'⟩ := p
    have h1 : k' ≠ k := fun he => h (by simp [keysOf, he])
    have h2 : k ∉ keysOf rest := fun hm => by
      refine h ?_
      simp only [keysOf, List.map_cons, List.mem_cons]
      exact Or.inr (by simpa [keysOf] using hm)
    simp only [dlookup, if_neg h1]
    exact ih h2

theorem mem_keys_of_dlookup (d : Dict K V) (k : K) (v : V) (h : dlookup d k = some v) :
    k ∈ keysOf d := by
  induction d with
  | nil => simp [dlookup] at h
  | cons p rest ih =>
    obtain ⟨k', v'⟩ := p
    by_cases h' : k' = k
    · simp [keysOf, h']
    · simp only [dlookup, if_neg h'] at h
      simp only [keysOf, List.map_cons, List.mem_cons]
      exact Or.inr (by simpa [keysOf] using ih h)

theorem mem_of_dlookup (d : Dict K V) (k : K) (v : V) (h : dlookup d k = some v) :
    (k, v) ∈ d := by
  induction d with
  | nil => simp [dlookup] at h
  | cons p rest ih =>
    obtain ⟨k', v'⟩ := p
    by_cases h' : k' = k
    · simp only [dlookup, if_pos h'] at h
      obtain rfl := Option.some.inj h
      simp [h']
    · simp only [dlookup, if_neg h'] at h
      exact List.mem_cons_of_mem _ (ih h)

theorem dlookup_derase_self (d : Dict K V) (k : K) (hn : NodupKeys d) :
    dlookup (derase d k) k = none := by
  induction d with
  | nil => simp [derase, dlookup]
  | cons p rest ih =>
    obtain ⟨k', v'⟩ := p
    simp only [NodupKeys, keysOf, List.map_cons, List.nodup_cons] at hn
    by_cases h' : k' = k
    · subst h'
      simp only [derase, if_pos rfl]
      exact dlookup_eq_none rest k' (by simpa [keysOf] using hn.1)
    · simp only [derase, if_neg h', dlookup, if_neg h']
      exact ih hn.2

theorem dlookup_isSome_of_mem_keys (d : Dict K V) (k : K) (h : k ∈ keysOf d) :
    (dlookup d k).isSome = true := by
  induction d with
  | nil => simp [keysOf] at h
  | cons p rest ih =>
    obtain ⟨k', v'⟩ := p
    by_cases h' : k' = k
    · simp [dlookup, h']
    · simp only [keysOf, List.map_cons, List.mem_cons] at h
      rcases h with h | h
      · exact absurd h.symm h'
      · simp only [dlookup, if_neg h']
        exact ih (by simpa [keysOf] using h)

theorem dmem_iff_mem_keys (d : Dict K V) (k : K) : dmem d k = true ↔ k ∈ keysOf d := by
  constructor
  · intro h
    obtain ⟨v, hv⟩ := Option.isSome_iff_exists.mp h
    exact mem_keys_of_dlookup d k v hv
  · intro h
    exact dlookup_isSome_of_mem_keys d k h

theorem dmem_false_iff (d : Dict K V) (k : K) : dmem d k = false ↔ dlookup d k = none := by
  unfold dmem
  cases dlookup d k <;> simp

theorem dmem_dinsert_self (d : Dict K V) (k : K) (v : V) :
    dmem (dinsert d k v) k = true := by
  simp [dmem, dlookup_dinsert_self]

theorem dmem_dinsert_ne (d : Dict K V) (k : K) (v : V) (k0 : K) (h : k0 ≠ k) :
    dmem (dinsert d k v) k0 = dmem d k0 := by
  simp [dmem, dlookup_dinsert_ne d k v k0 h]

theorem dmem_derase_ne (d : Dict K V) (k k0 : K) (h : k0 ≠ k) :
    dmem (derase d k) k0 = dmem d k0 := by
  simp [dmem, dlookup_derase_ne d k k0 h]

theorem dmem_derase_self (d : Dict K V) (k : K) (hn : NodupKeys d) :
    dmem (derase d k) k = false := by
  simp [dmem, dlookup_derase_self d k hn]

theorem keysOf_dinsert_mem (d : Dict K V) (k : K) (v : V) (h : dmem d k = true) :
    keysOf (dinsert d k v) = keysOf d := by
  induction d with
  | nil => simp [dmem, dlookup] at h
  | cons p rest ih =>
    obtain ⟨k', v'⟩ := p
    by_cases h' : k' = k
    · simp [dinsert, keysOf, h']
    · simp only [dmem, dlookup, if_neg h'] at h
      simp [dinsert, keysOf, h']
      simpa [keysOf] using ih h

theorem keysOf_dinsert_not_mem (d : Dict K V) (k : K) (v : V) (h : dmem d k = false) :
    keysOf (dinsert d k v) = keysOf d ++ [k] := by
  induction d with
  | nil => simp [dinsert, keysOf]
  | cons p rest ih =>
    obtain ⟨k', v'⟩ := p
    by_cases h' : k' = k
    · simp [dmem, dlookup, h'] at h
    · simp only [dmem, dlookup, if_neg h'] at h
      simp [dinsert, keysOf, h']
      simpa [keysOf] using ih h

theorem mem_keysOf_derase (d : Dict K V) (k k0 : K) (h : k0 ∈ keysOf (derase d k)) :
    k0 ∈ keysOf d := by
  induction d with
  | nil => simpa [derase] using h
  | cons p rest ih =>
    obtain ⟨k', v'⟩ := p
    by_cases h' : k' = k
    · simp only [derase, if_pos h'] at h
      simp only [keysOf, List.map_cons, List.mem_cons]
      exact Or.inr (by simpa [keysOf] using h)
    · simp only [derase, if_neg h', keysOf, List.map_cons, List.mem_cons] at h ⊢
      rcases h with h | h
      · exact Or.inl h
      · exact Or.inr (by simpa [keysOf] using ih (by simpa [keysOf] using h))

theorem nodupKeys_dinsert (d : Dict K V) (k : K) (v : V) (hn : NodupKeys d) :
    NodupKeys (dinsert d k v) := by
  by_cases h : dmem d k = true
  · unfold NodupKeys
    rw [keysOf_dinsert_mem d k v h]
    exact hn
  · unfold NodupKeys
    rw [keysOf_dinsert_not_mem d k v (by simpa using h)]
    refine List.Nodup.append hn (List.nodup_singleton k) ?_
    intro a ha hb
    obtain rfl := List.mem_singleton.mp hb
    exact h ((dmem_iff_mem_keys d a).mpr ha)

theorem nodupKeys_derase (d : Dict K V) (k : K) (hn : NodupKeys d) :
    NodupKeys (derase d k) := by
  induction d with
  | nil => simpa [derase] using hn
  | cons p rest ih =>
    obtain ⟨k', v'⟩ := p
    simp only [NodupKeys, keysOf, List.map_cons, List.nodup_cons] at hn
    by_cases h' : k' = k
    · simpa [NodupKeys, derase, h', keysOf] using hn.2
    · simp only [derase, if_neg h', NodupKeys, keysOf, List.map_cons, List.nodup_cons]
      exact ⟨fun hm => hn.1 (mem_keysOf_derase rest k k' hm),
             ih hn.2⟩

theorem dinsert_length_mem (d : Dict K V) (k : K) (v : V) (h : dmem d k = true) :
    (dinsert d k v).length = d.length := by
  induction d with
  | nil => simp [dmem, dlookup] at h
  | cons p rest ih =>
    obtain ⟨k', v'⟩ := p
    by_cases h' : k' = k
    · simp [dinsert, h']
    · simp only [dmem, dlookup, if_neg h'] at h
      simp [dinsert, h', ih h]

theorem dinsert_length_not_mem (d : Dict K V) (k : K) (v : V) (h : dmem d k = false) :
    (dinsert d k v).length = d.length + 1 := by
  induction d with
  | nil => simp [dinsert]
  | cons p rest ih =>
    obtain ⟨k', v'⟩ := p
    by_cases h' : k' = k
    · simp [dmem, dlookup, h'] at h
    · simp only [dmem, dlookup, if_neg h'] at h
      simp [dinsert, h', ih h]

theorem derase_length_mem (d : Dict K V) (k : K) (h : dmem d k = true) :
    (derase d k).length + 1 = d.length := by
  induction d with
  | nil => simp [dmem, dlookup] at h
  | cons p rest ih =>
    obtain ⟨k', v'⟩ := p
    by_cases h' : k' = k
    · simp [derase, h']
    · simp only [dmem, dlookup, if_neg h'] at h
      simp [derase, h', ih h]

theorem ofirst_none_left (b : Option V) : ofirst none b = b := rfl

theorem ofirst_some (v : V) (b : Option V) : ofirst (some v) b = some v := rfl

theorem ofirst_none_right (a : Option V) : ofirst a none = a := by
  cases a <;> rfl

theorem minEntry_eq_none_iff (d : Dict K Nat) : minEntry d = none ↔ d = [] := by
  cases d with
  | nil => simp [minEntry]
  | cons p rest =>
    obtain ⟨k, t⟩ := p
    simp only [minEntry]
    cases minEntry rest with
    | none => simp
    | some q =>
      obtain ⟨k', t'⟩ := q
      by_cases h : t ≤ t' <;> simp [h]

theorem minEntry_mem (d : Dict K Nat) (k : K) (t : Nat) (h : minEntry d = some (k, t)) :
    (k, t) ∈ d := by
  induction d with
  | nil => simp [minEntry] at h
  | cons p rest ih =>
    obtain ⟨k0, t0⟩ := p
    cases hm : minEntry rest with
    | none =>
      simp only [minEntry, hm, Option.some.injEq, Prod.mk.injEq] at h
      obtain ⟨rfl, rfl⟩ := h
      simp
    | some q =>
      obtain ⟨k', t'⟩ := q
      simp only [minEntry, hm] at h
      by_cases hle : t0 ≤ t'
      · rw [if_pos hle] at h
        simp only [Option.some.injEq, Prod.mk.injEq] at h
        obtain ⟨rfl, rfl⟩ := h
        simp
      · rw [if_neg hle] at h
        simp only [Option.some.injEq, Prod.mk.injEq] at h
        obtain ⟨rfl, rfl⟩ := h
        exact List.mem_cons_of_mem _ (ih hm)

theorem minEntry_le (d : Dict K Nat) (k : K) (t : Nat) (h : minEntry d = some (k, t)) :
    ∀ p ∈ d, t ≤ p.2 := by
  induction d generalizing k t with
  | nil => simp [minEntry] at h
  | cons p0 rest ih =>
    obtain ⟨k0, t0⟩ := p0
    cases hm : minEntry rest with
    | none =>
      simp only [minEntry, hm, Option.some.injEq, Prod.mk.injEq] at h
      obtain ⟨rfl, rfl⟩ := h
      intro p hp
      rcases List.mem_cons.mp hp with rfl | hp
      · exact le_refl _
      · exact absurd hp (by simp [(minEntry_eq_none_iff rest).mp hm])
    | some q =>
      obtain ⟨k', t'⟩ := q
      simp only [minEntry, hm] at h
      by_cases hle : t0 ≤ t'
      · rw [if_pos hle] at h
        simp only [Option.some.injEq, Prod.mk.injEq] at h
        obtain ⟨rfl, rfl⟩ := h
        intro p hp
        rcases List.mem_cons.mp hp with rfl | hp
        · exact le_refl _
        · exact le_trans hle (ih k' t' hm p hp)
      · rw [if_neg hle] at h
        simp only [Option.some.injEq, Prod.mk.injEq] at h
        obtain ⟨rfl, rfl⟩ := h
        intro p hp
        rcases List.mem_cons.mp hp with rfl | hp
        · exact le_of_lt (Nat.lt_of_not_le hle)
        · exact ih _ _ hm p hp

theorem dlookup_of_mem_nodup (d : Dict K V) (k : K) (v : V) (hn : NodupKeys d)
    (h : (k, v) ∈ d) : dlookup d k = some v := by
  induction d with
  | nil => simp at h
  | cons p rest ih =>
    obtain ⟨k', v'⟩ := p
    simp only [NodupKeys, keysOf, List.map_cons, List.nodup_cons] at hn
    rcases List.mem_cons.mp h with h | h
    · simp only [Prod.mk.injEq] at h
      obtain ⟨rfl, rfl⟩ := h
      simp [dlookup]
    · by_cases h' : k' = k
      · subst h'
        exact absurd (by simpa [keysOf] using List.mem_map_of_mem Prod.fst h) hn.1
      · simp only [dlookup, if_neg h']
        exact ih hn.2 h

theorem dlookup_append (d1 d2 : Dict K V) (k : K) :
    dlookup (d1 ++ d2) k = ofirst (dlookup d1 k) (dlookup d2 k) := by
  induction d1 with
  | nil => simp [dlookup, ofirst]
  | cons p rest ih =>
    obtain ⟨k', v'⟩ := p
    by_cases h' : k' = k <;> simp [dlookup, h', ih, ofirst]

theorem keysOf_reverse (d : Dict K V) : keysOf d.reverse = (keysOf d).reverse := by
  simp [keysOf, List.map_reverse]

theorem nodupKeys_reverse (d : Dict K V) (hn : NodupKeys d) : NodupKeys d.reverse := by
  unfold NodupKeys
  rw [keysOf_reverse]
  exact List.nodup_reverse.mpr hn

theorem dlookup_reverse (d : Dict K V) (k : K) (hn : NodupKeys d) :
    dlookup d.reverse k = dlookup d k := by
  induction d with
  | nil => rfl
  | cons p rest ih =>
    obtain ⟨k', v'⟩ := p
    simp only [NodupKeys, keysOf, List.map_cons, List.nodup_cons] at hn
    rw [List.reverse_cons, dlookup_append]
    by_cases h' : k' = k
    · subst h'
      have hrest : dlookup rest k' = none :=
        dlookup_eq_none rest k' (by simpa [keysOf] using hn.1)
      rw [ih hn.2, hrest]
      simp [dlookup, ofirst]
    · rw [ih hn.2]
      simp only [dlookup, if_neg h']
      cases dlookup rest k <;> simp [ofirst, dlookup, h']

theorem drainRev_err_noFaults (c : Codec K S) (shelf : Dict S V) (l : List (K × V)) :
    (drainRev noFaults c shelf l).2 = none := by
  induction l generalizing shelf with
  | nil => rfl
  | cons p rest ih =>
    obtain ⟨k, v⟩ := p
    simpa [drainRev, noFaults] using ih (dinsert shelf (c.enc k) v)

theorem drainRev_nodup (f : K → Option Nat) (c : Codec K S) (shelf : Dict S V)
    (l : List (K × V)) (hn : NodupKeys shelf) : NodupKeys (drainRev f c shelf l).1 := by
  induction l generalizing shelf with
  | nil => exact hn
  | cons p rest ih =>
    obtain ⟨k, v⟩ := p
    simp only [drainRev]
    cases f k with
    | some code => exact hn
    | none => exact ih _ (nodupKeys_dinsert shelf (c.enc k) v hn)

theorem drainRev_lookup (c : Codec K S) (hinj : ∀ a b : K, c.enc a = c.enc b → a = b)
    (l : List (K × V)) (hn : NodupKeys l) (shelf : Dict S V) (k : K) :
    dlookup (drainRev noFaults c shelf l).1 (c.enc k) =
      ofirst (dlookup l k) (dlookup shelf (c.enc k)) := by
  induction l generalizing shelf with
  | nil => simp [drainRev, dlookup, ofirst]
  | cons p rest ih =>
    obtain ⟨k0, v0⟩ := p
    simp only [NodupKeys, keysOf, List.map_cons, List.nodup_cons] at hn
    simp only [drainRev, noFaults]
    rw [ih hn.2]
    by_cases h' : k0 = k
    · subst h'
      have hrest : dlookup rest k0 = none :=
        dlookup_eq_none rest k0 (by simpa [keysOf] using hn.1)
      rw [hrest, dlookup_dinsert_self]
      simp [dlookup, ofirst]
    · rw [dlookup_dinsert_ne shelf (c.enc k0) v0 (c.enc k)
        (fun he => h' (hinj k k0 he).symm)]
      simp [dlookup, h']

theorem doFlush_err_noFaults (c : Codec K S) (shelf : Dict S V) (job : Dict K V) :
    (doFlush noFaults c shelf job).2 = none :=
  drainRev_err_noFaults c shelf job.reverse

theorem doFlush_nodup (f : K → Option Nat) (c : Codec K S) (shelf : Dict S V)
    (job : Dict K V) (hn : NodupKeys shelf) : NodupKeys (doFlush f c shelf job).1 :=
  drainRev_nodup f c shelf job.reverse hn

theorem doFlush_lookup (c : Codec K S) (hinj : ∀ a b : K, c.enc a = c.enc b → a = b)
    (job : Dict K V) (hn : NodupKeys job) (shelf : Dict S V) (k : K) :
    dlookup (doFlush noFaults c shelf job).1 (c.enc k) =
      ofirst (dlookup job k) (dlookup shelf (c.enc k)) := by
  unfold doFlush
  rw [drainRev_lookup c hinj job.reverse (nodupKeys_reverse job hn) shelf k,
      dlookup_reverse job k hn]

end DictLemmas

section EngineLemmas

variable {K S V : Type} [DecidableEq K] [DecidableEq S]

theorem waitForFlush_none (f : K → Option Nat) (c : Codec K S) (s : Engine K S V)
    (hstop : s.stopFlushing = false) (hexc : s.flushException = none)
    (hp : s.pending = none) :
    waitForFlush f c false s =
      ({ s with pending := none, stopFlushing := false, flushException := none },
       none, ([] : List Ev)) := by
  simp [waitForFlush, hstop, hexc, hp]

theorem waitForFlush_some (f : K → Option Nat) (c : Codec K S) (s : Engine K S V)
    (job : Dict K V) (hstop : s.stopFlushing = false) (hexc : s.flushException = none)
    (hp : s.pending = some job) :
    waitForFlush f c false s =
      ({ s with shelf := (doFlush f c s.shelf job).1, pending := none,
                stopFlushing := false, flushException := none },
       (doFlush f c s.shelf job).2, [Ev.join]) := by
  simp [waitForFlush, hstop, hexc, hp]

theorem waitForFlush_interrupt (f : K → Option Nat) (c : Codec K S) (s : Engine K S V)
    (hexc : s.flushException = none) :
    waitForFlush f c true s =
      ({ s with pending := none, stopFlushing := false, flushException := none },
       none, if s.pending.isSome then [Ev.join] else []) := by
  cases hp : s.pending with
  | none => simp [waitForFlush, hexc, hp]
  | some job => simp [waitForFlush, hexc, hp]

theorem waitForFlush_wf (c : Codec K S) (hinj : ∀ a b : K, c.enc a = c.enc b → a = b)
    (s : Engine K S V) (hwf : WF c s) :
    (waitForFlush noFaults c false s).2.1 = none ∧
    WF c (waitForFlush noFaults c false s).1 ∧
    (∀ k, view c (waitForFlush noFaults c false s).1 k = view c s k) ∧
    (waitForFlush noFaults c false s).1.cache = s.cache ∧
    (waitForFlush noFaults c false s).1.recency = s.recency ∧
    (waitForFlush noFaults c false s).1.hasFlushed = s.hasFlushed ∧
    (waitForFlush noFaults c false s).1.cacheLimit = s.cacheLimit ∧
    (waitForFlush noFaults c false s).1.length = s.length ∧
    (waitForFlush noFaults c false s).1.pending = none := by
  cases hp : s.pending with
  | none =>
    rw [waitForFlush_none noFaults c s hwf.noStop hwf.noExc hp]
    refine ⟨rfl, ?_, ?_, rfl, rfl, rfl, rfl, rfl, rfl⟩
    · exact { cacheNodup := hwf.cacheNodup, recNodup := hwf.recNodup,
              shelfNodup := hwf.shelfNodup,
              pendNodup := fun job h => Option.noConfusion h,
              agree := hwf.agree,
              pendFlushed := fun h => by simp at h,
              noExc := rfl, noStop := rfl,
              notFlushedEmpty := fun h => ⟨(hwf.notFlushedEmpty h).1, rfl⟩ }
    · intro k
      simp [view, hp]
  | some job =>
    rw [waitForFlush_some noFaults c s job hwf.noStop hwf.noExc hp]
    refine ⟨doFlush_err_noFaults c s.shelf job, ?_, ?_, rfl, rfl, rfl, rfl, rfl, rfl⟩
    · exact { cacheNodup := hwf.cacheNodup, recNodup := hwf.recNodup,
              shelfNodup := doFlush_nodup noFaults c s.shelf job hwf.shelfNodup,
              pendNodup := fun job' h => Option.noConfusion h,
              agree := hwf.agree,
              pendFlushed := fun h => by simp at h,
              noExc := rfl, noStop := rfl,
              notFlushedEmpty := fun h => by
                have hf : s.hasFlushed = false := h
                exact absurd (hwf.pendFlushed (by simp [hp])) (by simp [hf]) }
    · intro k
      simp only [view, hp]
      rw [doFlush_lookup c hinj job (hwf.pendNodup job hp) s.shelf k]

theorem partFlush_empty (f : K → Option Nat) (c : Codec K S) (s : Engine K S V)
    (hce : s.cache.isEmpty = true) : partFlush f c s = (s, none, []) := by
  simp [partFlush, hce]

theorem selectLoop_partition (n : Nat) (cache : Dict K V) (rec : Dict K Nat) (acc : Dict K V)
    (hn : n ≤ cache.length)
    (hagree : ∀ k, dmem cache k = dmem rec k)
    (hnc : NodupKeys cache) (hnr : NodupKeys rec) (hna : NodupKeys acc)
    (hdisj : ∀ k, dmem acc k = true → dmem cache k = false) :
    (selectLoop n cache rec acc).err = none ∧
    NodupKeys (selectLoop n cache rec acc).cache ∧
    NodupKeys (selectLoop n cache rec acc).recency ∧
    NodupKeys (selectLoop n cache rec acc).toFlush ∧
    (∀ k, dmem (selectLoop n cache rec acc).cache k =
          dmem (selectLoop n cache rec acc).recency k) ∧
    (∀ k, dmem (selectLoop n cache rec acc).toFlush k = true →
          dmem (selectLoop n cache rec acc).cache k = false) ∧
    (∀ k, ofirst (dlookup (selectLoop n cache rec acc).toFlush k)
            (dlookup (selectLoop n cache rec acc).cache k) =
          ofirst (dlookup acc k) (dlookup cache k)) ∧
    (selectLoop n cache rec acc).cache.length + n = cache.length ∧
    (selectLoop n cache rec acc).toFlush.length = acc.length + n := by
  induction n generalizing cache rec acc with
  | zero => exact ⟨rfl, hnc, hnr, hna, hagree, hdisj, fun k => rfl, rfl, rfl⟩
  | succ n ih =>
    have hcne : cache ≠ [] := by
      intro hc
      subst hc
      simp at hn
    obtain ⟨⟨k0, t0⟩, hm⟩ : ∃ p, minEntry rec = some p := by
      cases hmr : minEntry rec with
      | some p => exact ⟨p, rfl⟩
      | none =>
        have hre : rec = [] := (minEntry_eq_none_iff rec).mp hmr
        obtain ⟨p, ps, hcc⟩ : ∃ p ps, cache = p :: ps := by
          cases cache with
          | nil => exact absurd rfl hcne
          | cons p ps => exact ⟨p, ps, rfl⟩
        have h1 : dmem cache p.1 = true := by
          subst hcc
          simp [dmem, dlookup]
        rw [hagree p.1, hre] at h1
        simp [dmem, dlookup] at h1
    have hmemr : dmem rec k0 = true :=
      (dmem_iff_mem_keys rec k0).mpr
        (by simpa [keysOf] using List.mem_map_of_mem Prod.fst (minEntry_mem rec k0 t0 hm))
    have hmemc : dmem cache k0 = true := by rw [hagree k0]; exact hmemr
    obtain ⟨v0, hv0⟩ : ∃ v, dlookup cache k0 = some v := Option.isSome_iff_exists.mp hmemc
    have hstep : selectLoop (n + 1) cache rec acc =
        selectLoop n (derase cache k0) (derase rec k0) (dinsert acc k0 v0) := by
      simp [selectLoop, hm, hv0]
    rw [hstep]
    have hlen : (derase cache k0).length + 1 = cache.length := derase_length_mem cache k0 hmemc
    have hn' : n ≤ (derase cache k0).length := by omega
    have hagree' : ∀ k, dmem (derase cache k0) k = dmem (derase rec k0) k := by
      intro k
      by_cases hk : k = k0
      · subst hk
        rw [dmem_derase_self cache k hnc, dmem_derase_self rec k hnr]
      · rw [dmem_derase_ne cache k0 k hk, dmem_derase_ne rec k0 k hk]
        exact hagree k
    have hnotacc : dmem acc k0 = false := by
      cases hac : dmem acc k0 with
      | false => rfl
      | true => exact absurd hmemc (by simp [hdisj k0 hac])
    have hdisj' : ∀ k, dmem (dinsert acc k0 v0) k = true → dmem (derase cache k0) k = false := by
      intro k hk
      by_cases hkk : k = k0
      · subst hkk
        exact dmem_derase_self cache k hnc
      · rw [dmem_dinsert_ne acc k0 v0 k hkk] at hk
        rw [dmem_derase_ne cache k0 k hkk]
        exact hdisj k hk
    obtain ⟨e1, e2, e3, e4, e5, e6, e7, e8, e9⟩ :=
      ih (derase cache k0) (derase rec k0) (dinsert acc k0 v0) hn' hagree'
        (nodupKeys_derase cache k0 hnc) (nodupKeys_derase rec k0 hnr)
        (nodupKeys_dinsert acc k0 v0 hna) hdisj'
    refine ⟨e1, e2, e3, e4, e5, e6, ?_, by omega, ?_⟩
    · intro k
      rw [e7 k]
      by_cases hkk : k = k0
      · subst hkk
        have hacc : dlookup acc k = none := (dmem_false_iff acc k).mp hnotacc
        rw [dlookup_dinsert_self acc k v0, hacc, hv0]
        rfl
      · rw [dlookup_dinsert_ne acc k0 v0 k hkk, dlookup_derase_ne cache k0 k hkk]
    · rw [e9, dinsert_length_not_mem acc k0 v0 hnotacc]
      omega

theorem selectLoop_minRec (n : Nat) (cache : Dict K V) (rec : Dict K Nat) (acc : Dict K V)
    (origRec : Dict K Nat) (hnr : NodupKeys rec)
    (hsub : ∀ k t, dlookup rec k = some t → dlookup origRec k = some t)
    (hmin : ∀ ka, dmem acc ka = true → ∀ kr tr, dlookup rec kr = some tr →
       ∃ ta, dlookup origRec ka = some ta ∧ ta ≤ tr) :
    (∀ k t, dlookup (selectLoop n cache rec acc).recency k = some t →
       dlookup origRec k = some t) ∧
    (∀ ka, dmem (selectLoop n cache rec acc).toFlush ka = true →
       ∀ kr tr, dlookup (selectLoop n cache rec acc).recency kr = some tr →
         ∃ ta, dlookup origRec ka = some ta ∧ ta ≤ tr) := by
  induction n generalizing cache rec acc with
  | zero => exact ⟨hsub, hmin⟩
  | succ n ih =>
    cases hm : minEntry rec with
    | none =>
      simp only [selectLoop, hm]
      exact ⟨hsub, hmin⟩
    | some p =>
      obtain ⟨k0, t0⟩ := p
      cases hv : dlookup cache k0 with
      | none =>
        simp only [selectLoop, hm, hv]
        exact ⟨hsub, hmin⟩
      | some v0 =>
        have hstep : selectLoop (n + 1) cache rec acc =
            selectLoop n (derase cache k0) (derase rec k0) (dinsert acc k0 v0) := by
          simp [selectLoop, hm, hv]
        rw [hstep]
        have hrl : dlookup rec k0 = some t0 :=
          dlookup_of_mem_nodup rec k0 t0 hnr (minEntry_mem rec k0 t0 hm)
        refine ih (derase cache k0) (derase rec k0) (dinsert acc k0 v0)
          (nodupKeys_derase rec k0 hnr) ?_ ?_
        · intro k t ht
          by_cases hkk : k = k0
          · subst hkk
            rw [dlookup_derase_self rec k hnr] at ht
            exact absurd ht (by simp)
          · rw [dlookup_derase_ne rec k0 k hkk] at ht
            exact hsub k t ht
        · intro ka hka kr tr htr
          have hkrne : kr ≠ k0 := by
            intro he
            subst he
            rw [dlookup_derase_self rec kr hnr] at htr
            exact absurd htr (by simp)
          rw [dlookup_derase_ne rec k0 kr hkrne] at htr
          by_cases hkk : ka = k0
          · subst hkk
            exact ⟨t0, hsub ka t0 hrl,
                   minEntry_le rec ka t0 hm (kr, tr) (mem_of_dlookup rec kr tr htr)⟩
          · rw [dmem_dinsert_ne acc k0 v0 ka hkk] at hka
            exact hmin ka hka kr tr htr

theorem partFlush_sel_wf (c : Codec K S) (s1 : Engine K S V) (hwf : WF c s1)
    (hp : s1.pending = none) (n : Nat) (hn : n ≤ s1.cache.length) :
    (selectLoop n s1.cache s1.recency ([] : Dict K V)).err = none ∧
    ((selectLoop n s1.cache s1.recency ([] : Dict K V)).toFlush.isEmpty = true →
      ({ s1 with cache := (selectLoop n s1.cache s1.recency []).cache,
                 recency := (selectLoop n s1.cache s1.recency []).recency } : Engine K S V) =
        s1) ∧
    ((selectLoop n s1.cache s1.recency ([] : Dict K V)).toFlush.isEmpty = false →
      WF c { s1 with cache := (selectLoop n s1.cache s1.recency []).cache,
                     recency := (selectLoop n s1.cache s1.recency []).recency,
                     hasFlushed := true,
                     pending := some (selectLoop n s1.cache s1.recency []).toFlush } ∧
      ∀ k, view c { s1 with cache := (selectLoop n s1.cache s1.recency []).cache,
                            recency := (selectLoop n s1.cache s1.recency []).recency,
                            hasFlushed := true,
                            pending := some (selectLoop n s1.cache s1.recency []).toFlush } k =
           view c s1 k) := by
  obtain ⟨e1, e2, e3, e4, e5, e6, e7, e8, e9⟩ :=
    selectLoop_partition n s1.cache s1.recency [] hn hwf.agree hwf.cacheNodup hwf.recNodup
      (by simp [NodupKeys, keysOf]) (fun k h => by simp [dmem, dlookup] at h)
  refine ⟨e1, ?_, ?_⟩
  · intro hemp
    have htf0 : (selectLoop n s1.cache s1.recency ([] : Dict K V)).toFlush = [] := by
      cases h' : (selectLoop n s1.cache s1.recency ([] : Dict K V)).toFlush with
      | nil => rfl
      | cons a l =>
        rw [h'] at hemp
        simp at hemp
    have hn0 : n = 0 := by
      rw [htf0] at e9
      simpa using e9.symm
    subst hn0
    rfl
  · intro hne
    constructor
    · exact { cacheNodup := e2, recNodup := e3, shelfNodup := hwf.shelfNodup,
              pendNodup := fun job h => (Option.some.inj h) ▸ e4,
              agree := e5,
              pendFlushed := fun _ => rfl,
              noExc := hwf.noExc, noStop := hwf.noStop,
              notFlushedEmpty := fun h => absurd h (by simp) }
    · intro k
      simp only [view, hp]
      cases hcc : dlookup (selectLoop n s1.cache s1.recency ([] : Dict K V)).cache k with
      | some v =>
        have hmemc : dmem (selectLoop n s1.cache s1.recency ([] : Dict K V)).cache k = true := by
          simp [dmem, hcc]
        have htf : dmem (selectLoop n s1.cache s1.recency ([] : Dict K V)).toFlush k = false := by
          cases htf' : dmem (selectLoop n s1.cache s1.recency ([] : Dict K V)).toFlush k with
          | false => rfl
          | true => exact absurd hmemc (by simp [e6 k htf'])
        have h7 := e7 k
        rw [(dmem_false_iff _ k).mp htf, hcc] at h7
        simp only [dlookup, ofirst] at h7
        rw [← h7]
        rfl
      | none =>
        have h7 := e7 k
        rw [hcc, ofirst_none_right] at h7
        simp only [dlookup, ofirst] at h7
        rw [← h7]
        rfl

theorem partFlush_wf (c : Codec K S) (hinj : ∀ a b : K, c.enc a = c.enc b → a = b)
    (s : Engine K S V) (hwf : WF c s) :
    (partFlush noFaults c s).2.1 = none ∧ WF c (partFlush noFaults c s).1 ∧
    (∀ k, view c (partFlush noFaults c s).1 k = view c s k) := by
  by_cases hce : s.cache.isEmpty = true
  · rw [partFlush_empty noFaults c s hce]
    exact ⟨rfl, hwf, fun k => rfl⟩
  · have hce' : s.cache.isEmpty = false := by simpa using hce
    by_cases hf : s.hasFlushed = true
    · obtain ⟨hw1, hwfw, hview, hcache, hrec, hhf, hlim, hlen, hpend⟩ :=
        waitForFlush_wf c hinj s hwf
      obtain ⟨e1, eB, eC⟩ :=
        partFlush_sel_wf c (waitForFlush noFaults c false s).1 hwfw hpend
          ((waitForFlush noFaults c false s).1.cache.length -
            (waitForFlush noFaults c false s).1.cacheLimit / 4) (Nat.sub_le _ _)
      simp only [partFlush, hce', Bool.false_eq_true, if_false, hf, if_true, hw1, e1]
      by_cases hemp : (selectLoop
          ((waitForFlush noFaults c false s).1.cache.length -
            (waitForFlush noFaults c false s).1.cacheLimit / 4)
          (waitForFlush noFaults c false s).1.cache
          (waitForFlush noFaults c false s).1.recency ([] : Dict K V)).toFlush.isEmpty = true
      · rw [if_pos hemp, eB hemp]
        exact ⟨rfl, hwfw, hview⟩
      · have hemp' := (Bool.not_eq_true _).mp hemp
        obtain ⟨hwfr, hviewr⟩ := eC hemp'
        rw [if_neg (by simp [hemp'])]
        exact ⟨rfl, hwfr, fun k => (hviewr k).trans (hview k)⟩
    · have hf' : s.hasFlushed = false := (Bool.not_eq_true _).mp hf
      have hpend : s.pending = none := (hwf.notFlushedEmpty hf').2
      obtain ⟨e1, eB, eC⟩ :=
        partFlush_sel_wf c s hwf hpend (s.cache.length - s.cacheLimit / 4) (Nat.sub_le _ _)
      simp only [partFlush, hce', Bool.false_eq_true, if_false]
      rw [if_neg hf]
      simp only [e1]
      by_cases hemp : (selectLoop (s.cache.length - s.cacheLimit / 4)
          s.cache s.recency ([] : Dict K V)).toFlush.isEmpty = true
      · rw [if_pos hemp, eB hemp]
        exact ⟨rfl, hwf, fun k => rfl⟩
      · have hemp' := (Bool.not_eq_true _).mp hemp
        obtain ⟨hwfr, hviewr⟩ := eC hemp'
        rw [if_neg (by simp [hemp'])]
        exact ⟨rfl, hwfr, hviewr⟩

theorem mkEngine_wf (c : Codec K S) (limit : Nat) : WF c (mkEngine limit : Engine K S V) :=
  { cacheNodup := by simp [mkEngine, NodupKeys, keysOf],
    recNodup := by simp [mkEngine, NodupKeys, keysOf],
    shelfNodup := by simp [mkEngine, NodupKeys, keysOf],
    pendNodup := fun job h => Option.noConfusion h,
    agree := fun k => rfl,
    pendFlushed := fun h => by simp [mkEngine] at h,
    noExc := rfl, noStop := rfl,
    notFlushedEmpty := fun _ => ⟨rfl, rfl⟩ }

theorem initContainer_empty (f : K → Option Nat) (c : Codec K S) (limit : Nat) :
    initContainer f c limit ([] : Dict K V) = (mkEngine limit, none, []) := by
  unfold initContainer mkEngine
  by_cases h : limit ≤ ([] : List (K × V)).length
  · rw [if_pos h]
    simp [partFlush]
  · rw [if_neg h]
    simp

theorem insert_state_wf (c : Codec K S) (now : Nat) (k : K) (v : V) (s : Engine K S V)
    (len : Int) (hwf : WF c s) :
    WF c { s with cache := dinsert s.cache k v, recency := dinsert s.recency k now,
                  length := len } ∧
    ∀ k', view c { s with cache := dinsert s.cache k v,
                          recency := dinsert s.recency k now,
                          length := len } k' =
      if k' = k then some v else view c s k' := by
  constructor
  · exact { cacheNodup := nodupKeys_dinsert s.cache k v hwf.cacheNodup,
            recNodup := nodupKeys_dinsert s.recency k now hwf.recNodup,
            shelfNodup := hwf.shelfNodup,
            pendNodup := hwf.pendNodup,
            agree := fun k' => by
              by_cases hk : k' = k
              · subst hk
                rw [dmem_dinsert_self s.cache k' v, dmem_dinsert_self s.recency k' now]
              · rw [dmem_dinsert_ne s.cache k v k' hk, dmem_dinsert_ne s.recency k now k' hk]
                exact hwf.agree k',
            pendFlushed := hwf.pendFlushed,
            noExc := hwf.noExc, noStop := hwf.noStop,
            notFlushedEmpty := fun h => hwf.notFlushedEmpty h }
  · intro k'
    by_cases hk : k' = k
    · subst hk
      simp [view, dlookup_dinsert_self, ofirst]
    · simp [view, dlookup_dinsert_ne s.cache k v k' hk, hk]

theorem setOp_wf (c : Codec K S) (hinj : ∀ a b : K, c.enc a = c.enc b → a = b)
    (now : Nat) (k : K) (v : V) (s : Engine K S V) (hwf : WF c s) :
    (setOp noFaults c now k v s).2.1 = none ∧ WF c (setOp noFaults c now k v s).1 ∧
    (∀ k', view c (setOp noFaults c now k v s).1 k' =
       if k' = k then some v else view c s k') := by
  by_cases hm : dmem s.cache k = true
  · obtain ⟨hwfI, hviewI⟩ := insert_state_wf c now k v s s.length hwf
    simp only [setOp, hm, if_true]
    exact ⟨by trivial, hwfI, hviewI⟩
  · have hm' : dmem s.cache k = false := by simpa using hm
    by_cases hcap : s.cacheLimit ≤ s.cache.length
    · obtain ⟨p1, pwf, pview⟩ := partFlush_wf c hinj s hwf
      obtain ⟨hwfI, hviewI⟩ :=
        insert_state_wf c now k v (partFlush noFaults c s).1
          ((partFlush noFaults c s).1.length + 1) pwf
      simp only [setOp, hm', Bool.false_eq_true, if_false, if_pos hcap, p1]
      refine ⟨by trivial, hwfI, ?_⟩
      intro k'
      rw [hviewI k']
      by_cases hk : k' = k
      · simp [hk]
      · simp only [hk, if_false]
        exact pview k'
    · obtain ⟨hwfI, hviewI⟩ := insert_state_wf c now k v s (s.length + 1) hwf
      simp only [setOp, hm', Bool.false_eq_true, if_false, if_neg hcap]
      exact ⟨by trivial, hwfI, hviewI⟩

theorem runSets_wf (c : Codec K S) (hinj : ∀ a b : K, c.enc a = c.enc b → a = b)
    (ops : List (Nat × K × V)) :
    ∀ s : Engine K S V, WF c s →
      WF c (runSets noFaults c ops s) ∧
      (∀ k, view c (runSets noFaults c ops s) k = ofirst (lastVal ops k) (view c s k)) := by
  induction ops with
  | nil => exact fun s hwf => ⟨hwf, fun k => rfl⟩
  | cons p rest ih =>
    intro s hwf
    obtain ⟨now, k0, v0⟩ := p
    obtain ⟨h1, hwf1, hview1⟩ := setOp_wf c hinj now k0 v0 s hwf
    obtain ⟨hwf2, hview2⟩ := ih (setOp noFaults c now k0 v0 s).1 hwf1
    refine ⟨hwf2, ?_⟩
    intro k
    have hrun : runSets noFaults c ((now, k0, v0) :: rest) s =
        runSets noFaults c rest (setOp noFaults c now k0 v0 s).1 := rfl
    rw [hrun, hview2 k, hview1 k]
    cases hl : lastVal rest k with
    | some w => simp [lastVal, hl, ofirst]
    | none =>
      by_cases hk : k = k0
      · subst hk
        simp [lastVal, hl, ofirst]
      · simp [lastVal, hl, ofirst, hk]

theorem getOp_correct (c : Codec K S) (hinj : ∀ a b : K, c.enc a = c.enc b → a = b)
    (now : Nat) (k : K) (v : V) (s : Engine K S V) (hwf : WF c s)
    (hv : view c s k = some v) :
    (getOp noFaults c now k s).2.1 = Except.ok v := by
  by_cases hm : dmem s.cache k = true
  · have hcc : dlookup s.cache k = some v := by
      obtain ⟨v', hv'⟩ := Option.isSome_iff_exists.mp hm
      simp only [view, hv', ofirst] at hv
      rw [hv', hv]
    simp [getOp, hm, hcc]
  · have hm' : dmem s.cache k = false := by simpa using hm
    cases hf : s.hasFlushed with
    | false =>
      obtain ⟨hsh, hpd⟩ := hwf.notFlushedEmpty hf
      rw [view, (dmem_false_iff _ _).mp hm', hpd, hsh] at hv
      simp [ofirst, dlookup] at hv
    | true =>
      obtain ⟨hw1, hwfw, hview, hcache, hrec, hhf, hlim, hlen, hpend⟩ :=
        waitForFlush_wf c hinj s hwf
      have hg : dlookup (waitForFlush noFaults c false s).1.shelf (c.enc k) = some v := by
        have h2 := hview k
        rw [hv] at h2
        rw [view, hpend, hcache, (dmem_false_iff _ _).mp hm'] at h2
        simpa [ofirst] using h2
      by_cases hcap : (waitForFlush noFaults c false s).1.cacheLimit ≤
          (waitForFlush noFaults c false s).1.cache.length
      · obtain ⟨p1, _, _⟩ := partFlush_wf c hinj (waitForFlush noFaults c false s).1 hwfw
        simp [getOp, hf, hm', hw1, hg, hcap, p1]
      · simp [getOp, hf, hm', hw1, hg, hcap]

end EngineLemmas

section RunBelowLimit

variable {K S V : Type} [DecidableEq K] [DecidableEq S]

theorem addSeen_length_le (ks : List K) (k : K) : ks.length ≤ (addSeen ks k).length := by
  unfold addSeen
  by_cases h : k ∈ ks <;> simp [h]

theorem seenFrom_length_le (ops : List (Nat × K × V)) :
    ∀ ks : List K, ks.length ≤ (seenFrom ks ops).length := by
  induction ops with
  | nil => exact fun ks => le_refl _
  | cons p rest ih =>
    intro ks
    obtain ⟨now, k, v⟩ := p
    exact le_trans (addSeen_length_le ks k) (ih (addSeen ks k))

theorem seenFrom_nodup (ops : List (Nat × K × V)) :
    ∀ ks : List K, ks.Nodup → (seenFrom ks ops).Nodup := by
  induction ops with
  | nil => exact fun ks h => h
  | cons p rest ih =>
    intro ks h
    obtain ⟨_, k, _⟩ := p
    refine ih (addSeen ks k) ?_
    unfold addSeen
    by_cases hk : k ∈ ks
    · simpa [hk] using h
    · simp only [hk, if_neg, ite_false, List.nodup_append, List.nodup_singleton]
      exact ⟨h, by trivial, by
        intro a ha hb
        rw [List.mem_singleton] at hb
        subst hb
        exact hk ha⟩

theorem runSets_noflush (c : Codec K S) (ops : List (Nat × K × V)) :
    ∀ s : Engine K S V, s.hasFlushed = false →
      (seenFrom (keysOf s.cache) ops).length < s.cacheLimit →
      (runSets noFaults c ops s).hasFlushed = false ∧
      keysOf (runSets noFaults c ops s).cache = seenFrom (keysOf s.cache) ops ∧
      (runSets noFaults c ops s).cacheLimit = s.cacheLimit ∧
      (runSets noFaults c ops s).pending = s.pending ∧
      (runSets noFaults c ops s).shelf = s.shelf ∧
      (runSets noFaults c ops s).stopFlushing = s.stopFlushing ∧
      (runSets noFaults c ops s).flushException = s.flushException ∧
      (runSets noFaults c ops s).length + ((keysOf s.cache).length : Int) =
        s.length + ((seenFrom (keysOf s.cache) ops).length : Int) := by
  induction ops with
  | nil =>
    intro s h0 hlim
    exact ⟨h0, rfl, rfl, rfl, rfl, rfl, rfl, rfl⟩
  | cons p rest ih =>
    intro s h0 hlim
    obtain ⟨now, k, v⟩ := p
    have hcons : seenFrom (keysOf s.cache) ((now, k, v) :: rest) =
        seenFrom (addSeen (keysOf s.cache) k) rest := rfl
    have hrun : runSets noFaults c ((now, k, v) :: rest) s =
        runSets noFaults c rest (setOp noFaults c now k v s).1 := rfl
    by_cases hm : dmem s.cache k = true
    · have hset : setOp noFaults c now k v s =
          ({ s with cache := dinsert s.cache k v, recency := dinsert s.recency k now },
           none, []) := by
        simp [setOp, hm]
      have hkeys : keysOf (dinsert s.cache k v) = keysOf s.cache :=
        keysOf_dinsert_mem s.cache k v hm
      have hseen : addSeen (keysOf s.cache) k = keysOf s.cache := by
        unfold addSeen
        rw [if_pos ((dmem_iff_mem_keys s.cache k).mp hm)]
      have hset1 : (setOp noFaults c now k v s).1 =
          ({ s with cache := dinsert s.cache k v, recency := dinsert s.recency k now }) := by
        rw [hset]
      rw [hrun, hset1]
      obtain ⟨i1, i2, i3, i4, i5, i6, i7, i8⟩ :=
        ih ({ s with cache := dinsert s.cache k v, recency := dinsert s.recency k now })
          h0 (by
            rw [hcons, hseen] at hlim
            simpa [hkeys] using hlim)
      simp only [hkeys] at i2 i8
      refine ⟨i1, ?_, i3, i4, i5, i6, i7, ?_⟩
      · rw [hcons, hseen]
        exact i2
      · rw [hcons, hseen]
        exact i8
    · have hm' : dmem s.cache k = false := by simpa using hm
      have hkn : k ∉ keysOf s.cache := fun hmem =>
        by simp [(dmem_iff_mem_keys s.cache k).mpr hmem] at hm'
      have hseen : addSeen (keysOf s.cache) k = keysOf s.cache ++ [k] := by
        unfold addSeen
        rw [if_neg hkn]
      have happlen : (keysOf s.cache ++ [k]).length = (keysOf s.cache).length + 1 := by
        simp
      have hlenlt : s.cache.length < s.cacheLimit := by
        have h2 := seenFrom_length_le (V := V) rest (addSeen (keysOf s.cache) k)
        rw [hcons, hseen] at hlim
        have hkl : (keysOf s.cache).length = s.cache.length := by
          simp [keysOf]
        rw [hseen] at h2
        omega
      have hcap : ¬ (s.cacheLimit ≤ s.cache.length) := by omega
      have hset : setOp noFaults c now k v s =
          ({ s with cache := dinsert s.cache k v, recency := dinsert s.recency k now,
                    length := s.length + 1 }, none, []) := by
        simp [setOp, hm', hcap]
      have hkeys : keysOf (dinsert s.cache k v) = keysOf s.cache ++ [k] :=
        keysOf_dinsert_not_mem s.cache k v hm'
      have hset1 : (setOp noFaults c now k v s).1 =
          ({ s with cache := dinsert s.cache k v, recency := dinsert s.recency k now, length := s.length + 1 }) := by
        rw [hset]
      rw [hrun, hset1]
      obtain ⟨i1, i2, i3, i4, i5, i6, i7, i8⟩ :=
        ih ({ s with cache := dinsert s.cache k v, recency := dinsert s.recency k now, length := s.length + 1 })
          h0 (by
            rw [hcons, hseen] at hlim
            simpa [hkeys] using hlim)
      simp only [hkeys] at i2 i8
      refine ⟨i1, ?_, i3, i4, i5, i6, i7, ?_⟩
      · rw [hcons, hseen]
        exact i2
      · rw [hcons, hseen]
        omega

theorem flushOp_noflush (f : K → Option Nat) (c : Codec K S) (s : Engine K S V)
    (hce : s.cache.isEmpty = false) (hf : s.hasFlushed = false) :
    flushOp f c false s =
      ({ s with cache := [], recency := [], pending := some s.cache,
                hasFlushed := true }, none, [Ev.spawn]) := by
  simp [flushOp, hce, hf]

theorem iterOp_flushed_mem (c : Codec K S) (hinj : ∀ a b : K, c.enc a = c.enc b → a = b)
    (s : Engine K S V) (job : Dict K V)
    (hstop : s.stopFlushing = false) (hexc : s.flushException = none)
    (hf : s.hasFlushed = true) (hp : s.pending = some job) (hnj : NodupKeys job) :
    ∃ l : List K, (iterOp noFaults c s).2.1 = Except.ok l ∧
      ∀ k : K, dmem job k = true → c.dec (c.enc k) ∈ l := by
  simp only [iterOp]
  rw [if_pos hf, waitForFlush_some noFaults c s job hstop hexc hp]
  simp only [doFlush_err_noFaults]
  refine ⟨(keysOf ((doFlush noFaults c s.shelf job).1)).map c.dec, rfl, ?_⟩
  intro k hk
  obtain ⟨v, hv⟩ := Option.isSome_iff_exists.mp hk
  have hsl : dlookup (doFlush noFaults c s.shelf job).1 (c.enc k) = some v := by
    rw [doFlush_lookup c hinj job hnj s.shelf k, hv]
    rfl
  exact List.mem_map_of_mem c.dec (mem_keys_of_dlookup _ _ _ hsl)

end RunBelowLimit

section SingleFlight

variable {K S V : Type} [DecidableEq K] [DecidableEq S]

-- The single-flight discipline (claim C5).  `aliveCount s` counts the live
-- worker encoded in `s.pending`; an operation's event trace obeys the
-- discipline when every `spawn` happens at a moment with zero live workers.
-- The structural invariant `InvSF` (a live worker implies `_has_flushed`)
-- holds in every reachable state and suffices: each spawning path either runs
-- `_wait_for_flush` first (emitting the `join`) or is on a `not _has_flushed`
-- path, where `InvSF` guarantees no worker is outstanding.

theorem sfOk_joinEv (s : Engine K S V) :
    singleFlightOk (aliveCount s) (if s.pending.isSome then [Ev.join] else []) = true := by
  cases hpd : s.pending with
  | some job => rfl
  | none => rfl

theorem sfOk_joinEv_then (s : Engine K S V) (tail : List Ev)
    (htail : singleFlightOk 0 tail = true) :
    singleFlightOk (aliveCount s)
      ((if s.pending.isSome then [Ev.join] else []) ++ tail) = true := by
  cases hpd : s.pending with
  | some job => exact htail
  | none =>
    have ha : aliveCount s = 0 := by simp [aliveCount, hpd]
    rw [ha]
    exact htail

theorem partFlush_sf (f : K → Option Nat) (c : Codec K S) (s : Engine K S V)
    (hsf : InvSF s) :
    singleFlightOk (aliveCount s) ((partFlush f c s).2.2) = true := by
  by_cases hce : s.cache.isEmpty = true
  · rw [partFlush_empty f c s hce]
    rfl
  · have hce' : s.cache.isEmpty = false := by simpa using hce
    simp only [partFlush, hce', Bool.false_eq_true, if_false]
    by_cases hf : s.hasFlushed = true
    · rw [if_pos hf]
      split
      · exact sfOk_joinEv s
      · split
        · exact sfOk_joinEv s
        · split
          · exact sfOk_joinEv s
          · exact sfOk_joinEv_then s [Ev.spawn] rfl
    · rw [if_neg hf]
      have hpd : s.pending = none := by
        cases hpdd : s.pending with
        | none => rfl
        | some job => exact absurd (hsf (by rw [hpdd]; rfl)) hf
      have ha : aliveCount s = 0 := by simp [aliveCount, hpd]
      split
      · rfl
      · split
        · rfl
        · split
          · rfl
          · rw [ha]
            rfl

theorem setOp_sf (f : K → Option Nat) (c : Codec K S) (now : Nat) (k : K) (v : V)
    (s : Engine K S V) (hsf : InvSF s) :
    singleFlightOk (aliveCount s) ((setOp f c now k v s).2.2) = true := by
  by_cases hm : dmem s.cache k = true
  · simp only [setOp, hm, if_true]
    rfl
  · have hm' : dmem s.cache k = false := by simpa using hm
    simp only [setOp, hm', Bool.false_eq_true, if_false]
    by_cases hcap : s.cacheLimit ≤ s.cache.length
    · rw [if_pos hcap]
      split
      · exact partFlush_sf f c s hsf
      · exact partFlush_sf f c s hsf
    · rw [if_neg hcap]
      split
      · rfl
      · rfl

theorem getOp_sf (f : K → Option Nat) (c : Codec K S) (now : Nat) (k : K)
    (s : Engine K S V) :
    singleFlightOk (aliveCount s) ((getOp f c now k s).2.2) = true := by
  by_cases hcond : (s.hasFlushed && !(dmem s.cache k)) = true
  · simp only [getOp, hcond, if_true]
    have hWpd : (waitForFlush f c false s).1.pending = none := rfl
    split
    · exact sfOk_joinEv s
    · split
      · exact sfOk_joinEv s
      · have hp : singleFlightOk 0
            ((if (waitForFlush f c false s).1.cacheLimit ≤
                 (waitForFlush f c false s).1.cache.length then
                partFlush f c (waitForFlush f c false s).1
              else ((waitForFlush f c false s).1, none, ([] : List Ev))).2.2) = true := by
          by_cases hcap : (waitForFlush f c false s).1.cacheLimit ≤
              (waitForFlush f c false s).1.cache.length
          · rw [if_pos hcap]
            have h0 := partFlush_sf f c (waitForFlush f c false s).1
              (fun h => Bool.noConfusion h)
            have ha : aliveCount (waitForFlush f c false s).1 = 0 := by
              simp [aliveCount, hWpd]
            rw [ha] at h0
            exact h0
          · rw [if_neg hcap]
            rfl
        split
        · exact sfOk_joinEv_then s _ hp
        · exact sfOk_joinEv_then s _ hp
  · have hcond' : (s.hasFlushed && !(dmem s.cache k)) = false := by simpa using hcond
    simp only [getOp, hcond', Bool.false_eq_true, if_false]
    split
    · rfl
    · rfl

theorem delOp_sf (f : K → Option Nat) (c : Codec K S) (k : K) (s : Engine K S V) :
    singleFlightOk (aliveCount s) ((delOp f c k s).2.2) = true := by
  by_cases hf : s.hasFlushed = true
  · by_cases hm : dmem s.cache k = true
    · simp only [delOp, hf, if_true, hm]
      split
      · exact sfOk_joinEv s
      · split
        · exact sfOk_joinEv s
        · exact sfOk_joinEv s
    · have hm' : dmem s.cache k = false := by simpa using hm
      simp only [delOp, hf, if_true, hm', Bool.false_eq_true, if_false]
      split
      · exact sfOk_joinEv s
      · split
        · exact sfOk_joinEv s
        · exact sfOk_joinEv s
  · have hf' : s.hasFlushed = false := by simpa using hf
    simp only [delOp, hf', Bool.false_eq_true, if_false]
    split
    · rfl
    · rfl

theorem containsOp_sf (f : K → Option Nat) (c : Codec K S) (now : Nat) (k : K)
    (s : Engine K S V) :
    singleFlightOk (aliveCount s) ((containsOp f c now k s).2.2) = true := by
  by_cases hm : dmem s.cache k = true
  · simp only [containsOp, hm, if_true]
    rfl
  · have hm' : dmem s.cache k = false := by simpa using hm
    by_cases hf : s.hasFlushed = true
    · simp only [containsOp, hm', Bool.false_eq_true, if_false, hf, if_true]
      split
      · exact sfOk_joinEv s
      · exact sfOk_joinEv s
    · have hf' : s.hasFlushed = false := by simpa using hf
      simp only [containsOp, hm', hf', Bool.false_eq_true, if_false]
      rfl

theorem iterOp_sf (f : K → Option Nat) (c : Codec K S) (s : Engine K S V) :
    singleFlightOk (aliveCount s) ((iterOp f c s).2.2) = true := by
  by_cases hf : s.hasFlushed = true
  · simp only [iterOp, hf, if_true]
    split
    · exact sfOk_joinEv s
    · exact sfOk_joinEv s
  · have hf' : s.hasFlushed = false := by simpa using hf
    simp only [iterOp, hf', Bool.false_eq_true, if_false]
    rfl

theorem flushOp_sf (f : K → Option Nat) (c : Codec K S) (b : Bool) (s : Engine K S V)
    (hsf : InvSF s) :
    singleFlightOk (aliveCount s) ((flushOp f c b s).2.2) = true := by
  by_cases hce : s.cache.isEmpty = true
  · simp only [flushOp, hce, if_true]
    rfl
  · have hce' : s.cache.isEmpty = false := by simpa using hce
    simp only [flushOp, hce', Bool.false_eq_true, if_false]
    by_cases hf : s.hasFlushed = true
    · rw [if_pos hf]
      split
      · exact sfOk_joinEv s
      · split
        · rw [List.append_assoc]
          exact sfOk_joinEv_then s _ (by rfl)
        · exact sfOk_joinEv_then s [Ev.spawn] rfl
    · rw [if_neg hf]
      have hpd : s.pending = none := by
        cases hpdd : s.pending with
        | none => rfl
        | some job => exact absurd (hsf (by rw [hpdd]; rfl)) hf
      have ha : aliveCount s = 0 := by simp [aliveCount, hpd]
      split
      · rfl
      · split
        · rw [ha]
          rfl
        · rw [ha]
          rfl

theorem flushOne_sf (f : K → Option Nat) (c : Codec K S) (s : Engine K S V)
    (hsf : InvSF s) :
    singleFlightOk (aliveCount s) ((flushOne f c s).2.2) = true := by
  by_cases hce : s.cache.isEmpty = true
  · simp only [flushOne, hce, if_true]
    rfl
  · have hce' : s.cache.isEmpty = false := by simpa using hce
    simp only [flushOne, hce', Bool.false_eq_true, if_false]
    by_cases hf : s.hasFlushed = true
    · rw [if_pos hf]
      split
      · exact sfOk_joinEv s
      · split
        · exact sfOk_joinEv s
        · split
          · exact sfOk_joinEv s
          · exact sfOk_joinEv_then s [Ev.spawn] rfl
    · rw [if_neg hf]
      have hpd : s.pending = none := by
        cases hpdd : s.pending with
        | none => rfl
        | some job => exact absurd (hsf (by rw [hpdd]; rfl)) hf
      have ha : aliveCount s = 0 := by simp [aliveCount, hpd]
      split
      · rfl
      · split
        · rfl
        · split
          · rfl
          · rw [ha]
            rfl

theorem clearOp_sf (f : K → Option Nat) (c : Codec K S) (s : Engine K S V) :
    singleFlightOk (aliveCount s) ((clearOp f c s).2.2) = true := by
  by_cases hf : s.hasFlushed = true
  · simp only [clearOp, hf, if_true]
    split
    · exact sfOk_joinEv s
    · exact sfOk_joinEv s
  · have hf' : s.hasFlushed = false := by simpa using hf
    simp only [clearOp, hf', Bool.false_eq_true, if_false]
    rfl

theorem closeOp_sf (f : K → Option Nat) (c : Codec K S) (s : Engine K S V) :
    singleFlightOk (aliveCount s) ((closeOp f c s).2.2) = true := by
  by_cases ho : (!s.isOpen) = true
  · simp only [closeOp, ho, if_true]
    rfl
  · have ho' : (!s.isOpen) = false := by simpa using ho
    simp only [closeOp, ho', Bool.false_eq_true, if_false]
    split
    · exact sfOk_joinEv s
    · exact sfOk_joinEv s

-- `InvSF` is preserved by every modelled operation: a path that leaves a
-- worker outstanding either found `_has_flushed` already set or sets it.

theorem waitForFlush_invSF (f : K → Option Nat) (c : Codec K S) (b : Bool)
    (s : Engine K S V) : InvSF (waitForFlush f c b s).1 :=
  fun h => Bool.noConfusion h

theorem partFlush_invSF (f : K → Option Nat) (c : Codec K S) (s : Engine K S V)
    (hsf : InvSF s) : InvSF (partFlush f c s).1 := by
  by_cases hce : s.cache.isEmpty = true
  · rw [partFlush_empty f c s hce]
    exact hsf
  · have hce' : s.cache.isEmpty = false := by simpa using hce
    simp only [partFlush, hce', Bool.false_eq_true, if_false]
    by_cases hf : s.hasFlushed = true
    · rw [if_pos hf]
      split
      · exact fun h => Bool.noConfusion h
      · split
        · exact fun h => Bool.noConfusion h
        · split
          · exact fun h => Bool.noConfusion h
          · exact fun h => rfl
    · rw [if_neg hf]
      split
      · exact hsf
      · split
        · exact hsf
        · split
          · exact hsf
          · exact fun h => rfl

theorem setOp_invSF (f : K → Option Nat) (c : Codec K S) (now : Nat) (k : K) (v : V)
    (s : Engine K S V) (hsf : InvSF s) : InvSF (setOp f c now k v s).1 := by
  by_cases hm : dmem s.cache k = true
  · simp only [setOp, hm, if_true]
    exact hsf
  · have hm' : dmem s.cache k = false := by simpa using hm
    simp only [setOp, hm', Bool.false_eq_true, if_false]
    by_cases hcap : s.cacheLimit ≤ s.cache.length
    · rw [if_pos hcap]
      have hp := partFlush_invSF f c s hsf
      split
      · exact hp
      · exact hp
    · rw [if_neg hcap]
      split
      · exact hsf
      · exact hsf

theorem getOp_invSF (f : K → Option Nat) (c : Codec K S) (now : Nat) (k : K)
    (s : Engine K S V) (hsf : InvSF s) : InvSF (getOp f c now k s).1 := by
  by_cases hcond : (s.hasFlushed && !(dmem s.cache k)) = true
  · simp only [getOp, hcond, if_true]
    split
    · exact waitForFlush_invSF f c false s
    · split
      · exact waitForFlush_invSF f c false s
      · have hp : InvSF ((if (waitForFlush f c false s).1.cacheLimit ≤
              (waitForFlush f c false s).1.cache.length then
            partFlush f c (waitForFlush f c false s).1
          else ((waitForFlush f c false s).1, none, ([] : List Ev))) :
            Engine K S V × Option (Err K) × List Ev).1 := by
          by_cases hcap : (waitForFlush f c false s).1.cacheLimit ≤
              (waitForFlush f c false s).1.cache.length
          · rw [if_pos hcap]
            exact partFlush_invSF f c _ (waitForFlush_invSF f c false s)
          · rw [if_neg hcap]
            exact waitForFlush_invSF f c false s
        split
        · exact hp
        · exact hp
  · have hcond' : (s.hasFlushed && !(dmem s.cache k)) = false := by simpa using hcond
    simp only [getOp, hcond', Bool.false_eq_true, if_false]
    split
    · exact hsf
    · exact hsf

theorem delOp_invSF (f : K → Option Nat) (c : Codec K S) (k : K) (s : Engine K S V)
    (hsf : InvSF s) : InvSF (delOp f c k s).1 := by
  by_cases hf : s.hasFlushed = true
  · by_cases hm : dmem s.cache k = true
    · simp only [delOp, hf, if_true, hm]
      split
      · exact fun h => Bool.noConfusion h
      · split
        · split
          · exact fun h => Bool.noConfusion h
          · exact fun h => Bool.noConfusion h
        · split
          · exact fun h => Bool.noConfusion h
          · exact fun h => Bool.noConfusion h
    · have hm' : dmem s.cache k = false := by simpa using hm
      simp only [delOp, hf, if_true, hm', Bool.false_eq_true, if_false]
      split
      · exact fun h => Bool.noConfusion h
      · split
        · split
          · exact fun h => Bool.noConfusion h
          · exact fun h => Bool.noConfusion h
        · exact fun h => Bool.noConfusion h
  · have hf' : s.hasFlushed = false := by simpa using hf
    simp only [delOp, hf', Bool.false_eq_true, if_false]
    split
    · exact hsf
    · exact fun h => absurd (hsf h) (by simp [hf'])

theorem containsOp_invSF (f : K → Option Nat) (c : Codec K S) (now : Nat) (k : K)
    (s : Engine K S V) (hsf : InvSF s) : InvSF (containsOp f c now k s).1 := by
  by_cases hm : dmem s.cache k = true
  · simp only [containsOp, hm, if_true]
    exact hsf
  · have hm' : dmem s.cache k = false := by simpa using hm
    by_cases hf : s.hasFlushed = true
    · simp only [containsOp, hm', Bool.false_eq_true, if_false, hf, if_true]
      split
      · exact fun h => Bool.noConfusion h
      · exact fun h => Bool.noConfusion h
    · have hf' : s.hasFlushed = false := by simpa using hf
      simp only [containsOp, hm', hf', Bool.false_eq_true, if_false]
      exact hsf

theorem iterOp_invSF (f : K → Option Nat) (c : Codec K S) (s : Engine K S V)
    (hsf : InvSF s) : InvSF (iterOp f c s).1 := by
  by_cases hf : s.hasFlushed = true
  · simp only [iterOp, hf, if_true]
    split
    · exact fun h => Bool.noConfusion h
    · exact fun h => Bool.noConfusion h
  · have hf' : s.hasFlushed = false := by simpa using hf
    simp only [iterOp, hf', Bool.false_eq_true, if_false]
    exact hsf

theorem flushOp_invSF (f : K → Option Nat) (c : Codec K S) (b : Bool)
    (s : Engine K S V) (hsf : InvSF s) : InvSF (flushOp f c b s).1 := by
  by_cases hce : s.cache.isEmpty = true
  · simp only [flushOp, hce, if_true]
    exact hsf
  · have hce' : s.cache.isEmpty = false := by simpa using hce
    simp only [flushOp, hce', Bool.false_eq_true, if_false]
    by_cases hf : s.hasFlushed = true
    · rw [if_pos hf]
      split
      · exact fun h => Bool.noConfusion h
      · split
        · exact fun h => Bool.noConfusion h
        · exact fun h => hf
    · rw [if_neg hf]
      split
      · exact fun h => rfl
      · split
        · exact fun h => Bool.noConfusion h
        · exact fun h => rfl

theorem flushOne_invSF (f : K → Option Nat) (c : Codec K S) (s : Engine K S V)
    (hsf : InvSF s) : InvSF (flushOne f c s).1 := by
  by_cases hce : s.cache.isEmpty = true
  · simp only [flushOne, hce, if_true]
    exact hsf
  · have hce' : s.cache.isEmpty = false := by simpa using hce
    simp only [flushOne, hce', Bool.false_eq_true, if_false]
    by_cases hf : s.hasFlushed = true
    · rw [if_pos hf]
      split
      · exact fun h => Bool.noConfusion h
      · split
        · exact fun h => Bool.noConfusion h
        · split
          · exact fun h => Bool.noConfusion h
          · exact fun h => hf
    · rw [if_neg hf]
      split
      · exact fun h => rfl
      · split
        · exact fun h => rfl
        · split
          · exact fun h => rfl
          · exact fun h => rfl

theorem clearOp_invSF (f : K → Option Nat) (c : Codec K S) (s : Engine K S V)
    (hsf : InvSF s) : InvSF (clearOp f c s).1 := by
  by_cases hf : s.hasFlushed = true
  · simp only [clearOp, hf, if_true]
    split
    · exact fun h => Bool.noConfusion h
    · exact fun h => Bool.noConfusion h
  · have hf' : s.hasFlushed = false := by simpa using hf
    simp only [clearOp, hf', Bool.false_eq_true, if_false]
    exact fun h => absurd (hsf h) (by simp [hf'])

theorem closeOp_invSF (f : K → Option Nat) (c : Codec K S) (s : Engine K S V)
    (hsf : InvSF s) : InvSF (closeOp f c s).1 := by
  by_cases ho : (!s.isOpen) = true
  · simp only [closeOp, ho, if_true]
    exact hsf
  · have ho' : (!s.isOpen) = false := by simpa using ho
    simp only [closeOp, ho', Bool.false_eq_true, if_false]
    split
    · exact fun h => Bool.noConfusion h
    · exact fun h => Bool.noConfusion h

theorem runOp_invSF (f : K → Option Nat) (c : Codec K S) (op : OpC K V)
    (s : Engine K S V) (hsf : InvSF s) : InvSF (runOp f c op s).1 := by
  cases op with
  | setc now k v => exact setOp_invSF f c now k v s hsf
  | getc now k => exact getOp_invSF f c now k s hsf
  | delc k => exact delOp_invSF f c k s hsf
  | containsc now k => exact containsOp_invSF f c now k s hsf
  | iterc => exact iterOp_invSF f c s hsf
  | flushc b => exact flushOp_invSF f c b s hsf
  | partFlushc => exact partFlush_invSF f c s hsf
  | flushOnec => exact flushOne_invSF f c s hsf
  | clearc => exact clearOp_invSF f c s hsf
  | closec => exact closeOp_invSF f c s hsf

theorem reach_invSF (f : K → Option Nat) (c : Codec K S) (limit : Nat)
    (s : Engine K S V) (h : Reach f c limit s) : InvSF s := by
  induction h with
  | base => exact fun h => Bool.noConfusion h
  | step op hr ih => exact runOp_invSF f c op _ ih

theorem runOp_sf (f : K → Option Nat) (c : Codec K S) (op : OpC K V)
    (s : Engine K S V) (hsf : InvSF s) :
    singleFlightOk (aliveCount s) ((runOp f c op s).2.2) = true := by
  cases op with
  | setc now k v => exact setOp_sf f c now k v s hsf
  | getc now k => exact getOp_sf f c now k s
  | delc k => exact delOp_sf f c k s
  | containsc now k => exact containsOp_sf f c now k s
  | iterc => exact iterOp_sf f c s
  | flushc b => exact flushOp_sf f c b s hsf
  | partFlushc => exact partFlush_sf f c s hsf
  | flushOnec => exact flushOne_sf f c s hsf
  | clearc => exact clearOp_sf f c s
  | closec => exact closeOp_sf f c s

end SingleFlight

section Claims

/-- C2: for every finite sequence of `set(key, value)` calls on one container
(with any cache limit, including sequences whose distinct-key count exceeds
the limit), every key ever set is afterwards retrievable via `get` — from the
cache or from the store — and `get` returns the most recently set value for
that key. -/
theorem C2_eviction_correct {K S V : Type} [DecidableEq K] [DecidableEq S]
    (c : Codec K S) (hinj : ∀ a b : K, c.enc a = c.enc b → a = b)
    (limit : Nat) (ops : List (Nat × K × V)) (now : Nat) (k : K) (v : V)
    (hlast : lastVal ops k = some v) :
    (getOp noFaults c now k (runSets noFaults c ops (mkEngine limit))).2.1 =
      Except.ok v := by
  obtain ⟨hwf, hview⟩ := runSets_wf c hinj ops (mkEngine limit) (mkEngine_wf c limit)
  refine getOp_correct c hinj now k v _ hwf ?_
  rw [hview k, hlast]
  rfl

/-- Witness for C2 on a concrete run: with `cache_limit = 2`, four sets (the
third of which evicts the whole resident pair) leave every key gettable with
its latest value; key `1` is at that point only in the store. -/
theorem C2_eviction_correct_witness :
    ((∀ a b : Fin 4, c4.enc a = c4.enc b → a = b) ∧ lastVal opsC2 1 = some 11) ∧
    (getOp noFaults c4 0 1 (runSets noFaults c4 opsC2 (mkEngine 2))).2.1 =
      Except.ok 11 :=
  ⟨⟨by decide, by decide⟩,
   C2_eviction_correct c4 (by decide) 2 opsC2 0 1 11 (by decide)⟩

/-- C3 counterexample: on a fresh container, a single `set` (no flush has
occurred) followed by `iterate()`/`len()` yields the cached key and count 1 —
refuting the claim that they show no keys and zero before a flush. -/
theorem C3_counterexample :
    (iterOp noFaults c2 (setOp noFaults c2 0 0 5 (mkEngine 10)).1).2.1 =
      Except.ok [(0 : Fin 2)] ∧
    ([(0 : Fin 2)] : List (Fin 2)) ≠ [] ∧
    lenOp (setOp noFaults c2 0 0 5 (mkEngine 10)).1 = 1 ∧ (1 : Int) ≠ 0 :=
  ⟨rfl, by decide, by decide, by decide⟩

/-- C3 (amended): while no flush has occurred, `iterate()` yields exactly the
cache keys — i.e. every key set so far, in first-set order — and `len()`
returns the resident count; after a forced `flush()`, iteration yields the
decoded store keys, among which every previously set key appears. -/
theorem C3_iteration_visibility {K S V : Type} [DecidableEq K] [DecidableEq S]
    (c : Codec K S) (hinj : ∀ a b : K, c.enc a = c.enc b → a = b)
    (hdec : ∀ k : K, c.dec (c.enc k) = k)
    (limit : Nat) (ops : List (Nat × K × V)) (hne : ops ≠ [])
    (hlim : (seenFrom ([] : List K) ops).length < limit) :
    (iterOp noFaults c (runSets noFaults c ops (mkEngine limit))).2.1 =
      Except.ok (seenFrom ([] : List K) ops) ∧
    lenOp (runSets noFaults c ops (mkEngine limit)) =
      ((seenFrom ([] : List K) ops).length : Int) ∧
    (∃ l : List K,
      (iterOp noFaults c
          (flushOp noFaults c false (runSets noFaults c ops (mkEngine limit))).1).2.1 =
        Except.ok l ∧
      ∀ k ∈ seenFrom ([] : List K) ops, k ∈ l) := by
  obtain ⟨i1, i2, i3, i4, i5, i6, i7, i8⟩ :=
    runSets_noflush c ops (mkEngine limit) rfl
      (by
        rw [show keysOf ((mkEngine limit : Engine K S V)).cache = ([] : List K) from rfl]
        exact hlim)
  rw [show keysOf ((mkEngine limit : Engine K S V)).cache = ([] : List K) from rfl] at i2 i8
  rw [show ((mkEngine limit : Engine K S V)).length = (0 : Int) from rfl] at i8
  simp only [List.length_nil, Nat.cast_zero, add_zero, zero_add] at i8
  have hwfall := runSets_wf c hinj ops (mkEngine limit) (mkEngine_wf c limit)
  have hnodupc : NodupKeys (runSets noFaults c ops (mkEngine limit)).cache :=
    hwfall.1.cacheNodup
  have hseenne : seenFrom ([] : List K) ops ≠ [] := by
    cases ops with
    | nil => exact absurd rfl hne
    | cons p rest =>
      obtain ⟨now, k, v⟩ := p
      have h1 := seenFrom_length_le (V := V) rest (addSeen ([] : List K) k)
      have h2 : (addSeen ([] : List K) k).length = 1 := by simp [addSeen]
      intro he
      have h3 : seenFrom (addSeen ([] : List K) k) rest = [] := he
      rw [h3, h2] at h1
      simp at h1
  have hcne : (runSets noFaults c ops (mkEngine limit)).cache ≠ [] := by
    intro hc
    rw [hc] at i2
    exact hseenne i2.symm
  have hcef : (runSets noFaults c ops (mkEngine limit)).cache.isEmpty = false := by
    cases hc : (runSets noFaults c ops (mkEngine limit)).cache with
    | nil => exact absurd hc hcne
    | cons a l => rfl
  have hs2 : (flushOp noFaults c false (runSets noFaults c ops (mkEngine limit))).1 =
      ({ (runSets noFaults c ops (mkEngine limit)) with cache := [], recency := [], pending := some (runSets noFaults c ops (mkEngine limit)).cache, hasFlushed := true }) := by
    rw [flushOp_noflush noFaults c _ hcef i1]
  refine ⟨?_, ?_, ?_⟩
  · simp [iterOp, i1, i2]
  · simpa [lenOp] using i8
  · rw [hs2]
    obtain ⟨l, hl1, hl2⟩ :=
      iterOp_flushed_mem c hinj
        ({ (runSets noFaults c ops (mkEngine limit)) with cache := [], recency := [], pending := some (runSets noFaults c ops (mkEngine limit)).cache, hasFlushed := true })
        ((runSets noFaults c ops (mkEngine limit)).cache)
        i6 i7 rfl rfl hnodupc
    refine ⟨l, hl1, ?_⟩
    intro k hk
    rw [← i2] at hk
    have hkm : dmem (runSets noFaults c ops (mkEngine limit)).cache k = true :=
      (dmem_iff_mem_keys _ k).mpr hk
    rw [← hdec k]
    exact hl2 k hkm

/-- Witness for the amended C3 on a concrete two-key run below the limit. -/
theorem C3_iteration_visibility_witness :
    ((∀ a b : Fin 2, c2.enc a = c2.enc b → a = b) ∧
     (∀ k : Fin 2, c2.dec (c2.enc k) = k) ∧
     ([(0, 0, 5), (1, 1, 6)] : List (Nat × Fin 2 × Nat)) ≠ [] ∧
     (seenFrom ([] : List (Fin 2)) ([(0, 0, 5), (1, 1, 6)] : List (Nat × Fin 2 × Nat))).length < 10) ∧
    ((iterOp noFaults c2
        (runSets noFaults c2 [(0, 0, 5), (1, 1, 6)] (mkEngine 10))).2.1 =
      Except.ok (seenFrom ([] : List (Fin 2)) ([(0, 0, 5), (1, 1, 6)] : List (Nat × Fin 2 × Nat))) ∧
     lenOp (runSets noFaults c2 [(0, 0, 5), (1, 1, 6)] (mkEngine 10)) =
      ((seenFrom ([] : List (Fin 2)) ([(0, 0, 5), (1, 1, 6)] : List (Nat × Fin 2 × Nat))).length : Int) ∧
     (∃ l : List (Fin 2),
       (iterOp noFaults c2
           (flushOp noFaults c2 false
             (runSets noFaults c2 [(0, 0, 5), (1, 1, 6)] (mkEngine 10))).1).2.1 =
         Except.ok l ∧
       ∀ k ∈ seenFrom ([] : List (Fin 2)) ([(0, 0, 5), (1, 1, 6)] : List (Nat × Fin 2 × Nat)), k ∈ l)) :=
  ⟨⟨by decide, by decide, by decide, by decide⟩,
   C3_iteration_visibility c2 (by decide) (by decide) 10 [(0, 0, 5), (1, 1, 6)]
     (by decide) (by decide)⟩

/-- C1 counterexample: with `cache_limit = 8`, the ninth `set` triggers a
partial flush that hands the worker six entries (not the entire eight-entry
cache) and leaves three resident (not an empty cache); running the same sets
with reversed timestamps hands the worker a different six — the recency map is
read to pick the victims. -/
theorem C1_counterexample :
    (runSets noFaults c9 ops9 (mkEngine 8)).pending =
      some [(0, 100), (1, 101), (2, 102), (3, 103), (4, 104), (5, 105)] ∧
    (runSets noFaults c9 ops9 (mkEngine 8)).cache =
      [(6, 106), (7, 107), (8, 108)] ∧
    (runSets noFaults c9 ops9 (mkEngine 8)).cache ≠ [] ∧
    (runSets noFaults c9 ops9r (mkEngine 8)).pending =
      some [(7, 107), (6, 106), (5, 105), (4, 104), (3, 103), (2, 102)] ∧
    (runSets noFaults c9 ops9r (mkEngine 8)).pending ≠
      (runSets noFaults c9 ops9 (mkEngine 8)).pending :=
  ⟨by decide, by decide, by decide, by decide, by decide⟩

/-- C1 (amended): when `_partial_flush` runs on a cache whose resident count
has reached `cache_limit`, the eviction handed to the fresh worker consists of
the `len(cache) - cache_limit // 4` least-recently-touched entries, chosen by
reading the recency map: the surviving `cache_limit // 4` entries stay
resident, flushed and surviving entries partition the previous cache, and
every flushed entry's recency stamp is at most every surviving entry's. -/
theorem C1_partial_eviction {K S V : Type} [DecidableEq K] [DecidableEq S]
    (c : Codec K S) (s : Engine K S V)
    (hagree : ∀ k, dmem s.cache k = dmem s.recency k)
    (hnc : NodupKeys s.cache) (hnr : NodupKeys s.recency)
    (hp : s.pending = none) (hexc : s.flushException = none)
    (hstop : s.stopFlushing = false)
    (hlim : s.cacheLimit ≤ s.cache.length) (hne : s.cache ≠ []) :
    (partFlush noFaults c s).2.1 = none ∧
    ∃ job, (partFlush noFaults c s).1.pending = some job ∧
      job.length = s.cache.length - s.cacheLimit / 4 ∧
      (partFlush noFaults c s).1.cache.length = s.cacheLimit / 4 ∧
      (∀ k, ofirst (dlookup job k) (dlookup (partFlush noFaults c s).1.cache k) =
        dlookup s.cache k) ∧
      (∀ k, dmem job k = true → dmem (partFlush noFaults c s).1.cache k = false) ∧
      (∀ kf, dmem job kf = true → ∀ kr tr,
        dlookup (partFlush noFaults c s).1.recency kr = some tr →
          ∃ tf, dlookup s.recency kf = some tf ∧ tf ≤ tr) := by
  have hwid : ({ s with pending := none, stopFlushing := false,
                        flushException := none } : Engine K S V) = s := by
    rw [← hp, ← hstop, ← hexc]
  have hwait : waitForFlush noFaults c false s = (s, none, []) := by
    rw [waitForFlush_none noFaults c s hstop hexc hp, hwid]
  have hcef : s.cache.isEmpty = false := by
    cases hc : s.cache with
    | nil => exact absurd hc hne
    | cons a l => rfl
  have hif : (if s.hasFlushed then waitForFlush noFaults c false s else (s, none, [])) =
      (s, none, []) := by
    by_cases hf : s.hasFlushed = true
    · rw [if_pos hf, hwait]
    · rw [if_neg hf]
  obtain ⟨e1, e2, e3, e4, e5, e6, e7, e8, e9⟩ :=
    selectLoop_partition (s.cache.length - s.cacheLimit / 4) s.cache s.recency []
      (Nat.sub_le _ _) hagree hnc hnr (by simp [NodupKeys, keysOf])
      (fun k h => by simp [dmem, dlookup] at h)
  obtain ⟨m1, m2⟩ :=
    selectLoop_minRec (s.cache.length - s.cacheLimit / 4) s.cache s.recency [] s.recency
      hnr (fun k t ht => ht) (fun ka hka => by simp [dmem, dlookup] at hka)
  have hlen1 : 1 ≤ s.cache.length := by
    cases hc : s.cache with
    | nil => exact absurd hc hne
    | cons a l => simp
  have hn1 : 1 ≤ s.cache.length - s.cacheLimit / 4 := by
    by_cases h0 : s.cacheLimit = 0
    · omega
    · have hdiv : s.cacheLimit / 4 < s.cacheLimit := Nat.div_lt_self (by omega) (by omega)
      omega
  have hne2 : (selectLoop (s.cache.length - s.cacheLimit / 4) s.cache s.recency
      ([] : Dict K V)).toFlush.isEmpty = false := by
    cases htf : (selectLoop (s.cache.length - s.cacheLimit / 4) s.cache s.recency
        ([] : Dict K V)).toFlush with
    | nil =>
      rw [htf] at e9
      simp at e9
      omega
    | cons a l => rfl
  have hpf : partFlush noFaults c s =
      ({ s with cache := (selectLoop (s.cache.length - s.cacheLimit / 4) s.cache s.recency []).cache,
                recency := (selectLoop (s.cache.length - s.cacheLimit / 4) s.cache s.recency []).recency,
                hasFlushed := true,
                pending := some (selectLoop (s.cache.length - s.cacheLimit / 4) s.cache s.recency []).toFlush },
       none, [Ev.spawn]) := by
    simp only [partFlush, hcef, Bool.false_eq_true, if_false, hif, e1]
    rw [if_neg (by simp [hne2])]
    simp
  have herr1 : (partFlush noFaults c s).2.1 = none := by rw [hpf]
  have hpend1 : (partFlush noFaults c s).1.pending =
      some (selectLoop (s.cache.length - s.cacheLimit / 4) s.cache s.recency []).toFlush := by
    rw [hpf]
  have hcache1 : (partFlush noFaults c s).1.cache =
      (selectLoop (s.cache.length - s.cacheLimit / 4) s.cache s.recency []).cache := by
    rw [hpf]
  have hrec1 : (partFlush noFaults c s).1.recency =
      (selectLoop (s.cache.length - s.cacheLimit / 4) s.cache s.recency []).recency := by
    rw [hpf]
  refine ⟨herr1, ⟨(selectLoop (s.cache.length - s.cacheLimit / 4) s.cache s.recency []).toFlush,
    hpend1, ?_, ?_, ?_, ?_, ?_⟩⟩
  · simpa using e9
  · rw [hcache1]
    have hdle : s.cacheLimit / 4 ≤ s.cacheLimit := Nat.div_le_self _ _
    omega
  · intro k
    rw [hcache1]
    have h7 := e7 k
    simpa [dlookup, ofirst] using h7
  · intro k hk
    rw [hcache1]
    exact e6 k hk
  · intro kf hkf kr tr htr
    rw [hrec1] at htr
    exact m2 kf hkf kr tr htr

/-- Witness for the amended C1: a partial flush of a four-entry cache at
limit 4 keeps `4 // 4 = 1` entry and hands three to the worker. -/
theorem C1_partial_eviction_witness :
    (sPF.cacheLimit ≤ sPF.cache.length ∧ sPF.cache ≠ []) ∧
    ((partFlush noFaults c4 sPF).2.1 = none ∧
     ∃ job, (partFlush noFaults c4 sPF).1.pending = some job ∧
       job.length = sPF.cache.length - sPF.cacheLimit / 4 ∧
       (partFlush noFaults c4 sPF).1.cache.length = sPF.cacheLimit / 4 ∧
       (∀ k, ofirst (dlookup job k) (dlookup (partFlush noFaults c4 sPF).1.cache k) =
         dlookup sPF.cache k) ∧
       (∀ k, dmem job k = true → dmem (partFlush noFaults c4 sPF).1.cache k = false) ∧
       (∀ kf, dmem job kf = true → ∀ kr tr,
         dlookup (partFlush noFaults c4 sPF).1.recency kr = some tr →
           ∃ tf, dlookup sPF.recency kf = some tf ∧ tf ≤ tr)) :=
  ⟨⟨by decide, by decide⟩,
   C1_partial_eviction c4 sPF (by decide) (by unfold NodupKeys keysOf; decide)
     (by unfold NodupKeys keysOf; decide) (by decide) (by decide) (by decide)
     (by decide) (by decide)⟩

/-- C10 counterexample: overwriting a cache-resident key does refresh its
recency stamp — `_set` assigns `self._recency[key] = time.time()` in the
overwrite branch — contradicting the claim that recency is left unchanged. -/
theorem C10_counterexample :
    (setOp noFaults c2 5 0 1 (mkEngine 10)).1.recency = [(0, 5)] ∧
    (setOp noFaults c2 9 0 2 (setOp noFaults c2 5 0 1 (mkEngine 10)).1).1.recency =
      [(0, 9)] ∧
    (setOp noFaults c2 9 0 2 (setOp noFaults c2 5 0 1 (mkEngine 10)).1).1.recency ≠
      (setOp noFaults c2 5 0 1 (mkEngine 10)).1.recency ∧
    (setOp noFaults c2 9 0 2 (setOp noFaults c2 5 0 1 (mkEngine 10)).1).1.cache =
      [(0, 2)] :=
  ⟨by decide, by decide, by decide, by decide⟩

/-- C10 (amended): `set` on a cache-resident key overwrites the value in place
and refreshes that key's recency stamp to now; no other cache or recency entry
changes, no flush is triggered, no error is raised, and the shelf, worker
slot, `_has_flushed` and `_length` are untouched. -/
theorem C10_overwrite_refreshes_recency {K S V : Type} [DecidableEq K] [DecidableEq S]
    (f : K → Option Nat) (c : Codec K S) (now : Nat) (k : K) (v : V)
    (s : Engine K S V) (h : dmem s.cache k = true) :
    (setOp f c now k v s).2.1 = none ∧
    (setOp f c now k v s).2.2 = [] ∧
    dlookup (setOp f c now k v s).1.cache k = some v ∧
    (∀ k', k' ≠ k → dlookup (setOp f c now k v s).1.cache k' = dlookup s.cache k') ∧
    dlookup (setOp f c now k v s).1.recency k = some now ∧
    (∀ k', k' ≠ k → dlookup (setOp f c now k v s).1.recency k' = dlookup s.recency k') ∧
    (setOp f c now k v s).1.shelf = s.shelf ∧
    (setOp f c now k v s).1.pending = s.pending ∧
    (setOp f c now k v s).1.hasFlushed = s.hasFlushed ∧
    (setOp f c now k v s).1.length = s.length := by
  have hset : setOp f c now k v s =
      ({ s with cache := dinsert s.cache k v, recency := dinsert s.recency k now },
       none, []) := by
    simp [setOp, h]
  rw [hset]
  refine ⟨rfl, rfl, ?_, ?_, ?_, ?_, rfl, rfl, rfl, rfl⟩
  · exact dlookup_dinsert_self s.cache k v
  · exact fun k' hk => dlookup_dinsert_ne s.cache k v k' hk
  · exact dlookup_dinsert_self s.recency k now
  · exact fun k' hk => dlookup_dinsert_ne s.recency k now k' hk

/-- Witness for the amended C10 at a concrete overwrite. -/
theorem C10_overwrite_refreshes_recency_witness :
    dmem (setOp noFaults c2 5 0 1 (mkEngine 10)).1.cache 0 = true ∧
    dlookup (setOp noFaults c2 9 0 2
      (setOp noFaults c2 5 0 1 (mkEngine 10)).1).1.recency 0 = some 9 :=
  ⟨by decide,
   (C10_overwrite_refreshes_recency noFaults c2 9 0 2
     (setOp noFaults c2 5 0 1 (mkEngine 10)).1 (by decide)).2.2.2.2.1⟩

/-- C7 counterexample: after one set and a synchronous flush, deleting a key
absent from both the cache and the store raises `KeyError` — the delete does
not complete silently. -/
theorem C7_counterexample :
    (delOp noFaults c2 1 sF).2.1 = some (Err.keyNotFound 1) := by decide

/-- C7 (amended): once `_has_flushed` is set, deleting `k` when the store has
no entry for it raises `KeyError(k)` exactly when `k` is also absent from the
cache; when `k` was cache-resident, the store's not-found is swallowed and the
delete completes without error. -/
theorem C7_delete_absent {K S V : Type} [DecidableEq K] [DecidableEq S]
    (f : K → Option Nat) (c : Codec K S) (k : K) (s : Engine K S V)
    (hf : s.hasFlushed = true) (hp : s.pending = none)
    (hexc : s.flushException = none) (hstop : s.stopFlushing = false)
    (hsh : dlookup s.shelf (c.enc k) = none) :
    (dmem s.cache k = false → (delOp f c k s).2.1 = some (Err.keyNotFound k)) ∧
    (dmem s.cache k = true → (delOp f c k s).2.1 = none) := by
  have hshm : dmem s.shelf (c.enc k) = false := (dmem_false_iff _ _).mpr hsh
  constructor
  · intro hm
    simp only [delOp, hf, if_true, hm, Bool.false_eq_true, if_false]
    rw [waitForFlush_none f c s hstop hexc hp]
    simp [hshm, hm]
  · intro hm
    simp only [delOp, hf, if_true, hm]
    rw [waitForFlush_none f c
      ({ s with cache := derase s.cache k, recency := derase s.recency k, hasFlushed := true })
      hstop hexc hp]
    simp [hshm, hm]

/-- Witness for the amended C7 at concrete inputs covering both conjuncts. -/
theorem C7_delete_absent_witness :
    (sF.hasFlushed = true ∧ dlookup sF.shelf (c2.enc 1) = none ∧
     dmem sF.cache 1 = false) ∧
    (delOp noFaults c2 1 sF).2.1 = some (Err.keyNotFound 1) :=
  ⟨⟨by decide, by decide, by decide⟩,
   (C7_delete_absent noFaults c2 1 sF (by decide) (by decide) (by decide)
     (by decide) (by decide)).1 (by decide)⟩

/-- C9: evaluation at the failing input. After `close()`, `len()` returns the
stale count 2 without any error, `flush()` returns silently leaving the state
untouched, and a second `close()` is an exact no-op — there is no
`ClosedContainerError` anywhere in the source, contradicting the claim (and
the source's own docstrings) that every operation after `close()` raises. -/
theorem C9_close_behavior :
    (closeOp noFaults c2 sC).1.isOpen = false ∧
    lenOp (closeOp noFaults c2 sC).1 = 2 ∧
    (flushOp noFaults c2 false (closeOp noFaults c2 sC).1).2.1 = none ∧
    (flushOp noFaults c2 false (closeOp noFaults c2 sC).1).1 =
      (closeOp noFaults c2 sC).1 ∧
    closeOp noFaults c2 (closeOp noFaults c2 sC).1 =
      ((closeOp noFaults c2 sC).1, none, []) :=
  ⟨by decide, by decide, by decide, by decide, by decide⟩

/-- C8: evaluation at the failing input. `insert` at index == length (append)
raises `IndexError` because `_convert_index` rejects any index outside
`[0, len)` before the `index == len(self)` test can run — so append never
succeeds; a mid-sequence insert raises `NotImplementedError` (the spec's
`UnsupportedOperation`) as claimed; and `trim(1)` on a three-element sequence
deletes indices 2 then 1, in strictly descending order, leaving one element
and raising nothing. -/
theorem C8_sequence_restrictions :
    (listInsert noFaults cInt 0 0 99 (mkEngine 100 : Engine Int Nat Nat)).2.1 =
      some (Err.indexError 0) ∧
    (listInsert noFaults cInt 5 1 99 sL3).2.1 = some Err.unsupported ∧
    (listTrim noFaults cInt 1 sL3).2.2 = [2, 1] ∧
    (listTrim noFaults cInt 1 sL3).1.cache = [(0, 10)] ∧
    (listTrim noFaults cInt 1 sL3).1.length = 1 ∧
    (listTrim noFaults cInt 1 sL3).2.1 = none :=
  ⟨by decide, by decide, by decide, by decide, by decide, by decide⟩

/-- C4: evaluation at the failing input. Starting `flush(exclusions={0})` on a
cache holding keys 0 and 1: the dict handed to the worker is the engine's own
cache object (`sameDict = true`), still holding both entries (the excluded
key 0 merely moved to the end), so the engine's cache does not hold exactly
the excluded entries and key 1 is simultaneously in the worker's pending set
and in the cache; only the recency dict was properly rebuilt to hold just the
exclusion. -/
theorem C4_exclusion_aliasing :
    (flushExclSpawn noFaults c2 [0] sX).1 =
      some { engineCache := [(1, 20), (0, 10)], engineRecency := [(0, 3)],
             workerJob := [(1, 20), (0, 10)], sameDict := true } ∧
    (flushExclSpawn noFaults c2 [0] sX).2 = none ∧
    ([(1, 20), (0, 10)] : Dict (Fin 2) Nat) ≠ [(0, 10)] ∧
    dmem ([(1, 20), (0, 10)] : Dict (Fin 2) Nat) 1 = true :=
  ⟨by decide, by decide, by decide, by decide⟩

/-- C6 counterexample: a synchronous `flush()` both triggers the background
drain and synchronizes with it, so an injected store fault is raised on the
very operation that triggered the flush — refuting the claim's universal "the
fault is not raised on the operation that triggered the flush". -/
theorem C6_counterexample :
    (flushOp f1 c2 true sOne).2.1 = some (Err.storeFault 7) := by decide

/-- C6 (amended): when a flush is triggered asynchronously, the triggering
call returns without error, handing the current cache to the worker; the
fault captured during the worker's drain is surfaced — identically, as the
drain produced it — by the next synchronizing call, which also clears the
deferred-error slot and the worker handle. -/
theorem C6_deferred_error {K S V : Type} [DecidableEq K] [DecidableEq S]
    (f : K → Option Nat) (c : Codec K S) (s : Engine K S V)
    (hp : s.pending = none) (hexc : s.flushException = none)
    (hstop : s.stopFlushing = false) (hne : s.cache ≠ []) :
    (flushOp f c false s).2.1 = none ∧
    (flushOp f c false s).1.pending = some s.cache ∧
    (waitForFlush f c false (flushOp f c false s).1).2.1 =
      (doFlush f c (flushOp f c false s).1.shelf s.cache).2 ∧
    (waitForFlush f c false (flushOp f c false s).1).1.flushException = none ∧
    (waitForFlush f c false (flushOp f c false s).1).1.pending = none := by
  have hcef : s.cache.isEmpty = false := by
    cases hc : s.cache with
    | nil => exact absurd hc hne
    | cons a l => rfl
  by_cases hf : s.hasFlushed = true
  · have hfl : flushOp f c false s =
        ({ s with cache := [], recency := [], pending := some s.cache,
                  stopFlushing := false, flushException := none }, none, [Ev.spawn]) := by
      simp only [flushOp, hcef, Bool.false_eq_true, if_false, if_pos hf]
      rw [waitForFlush_none f c s hstop hexc hp]
      simp
    have hfl1 : (flushOp f c false s).1 =
        ({ s with cache := [], recency := [], pending := some s.cache,
                  stopFlushing := false, flushException := none }) := by
      rw [hfl]
    have hfle : (flushOp f c false s).2.1 = none := by rw [hfl]
    refine ⟨hfle, ?_, ?_, ?_, ?_⟩
    · rw [hfl1]
    · rw [hfl1, waitForFlush_some f c ({ s with cache := [], recency := [], pending := some s.cache, stopFlushing := false, flushException := none }) s.cache rfl rfl rfl]
    · rw [hfl1, waitForFlush_some f c ({ s with cache := [], recency := [], pending := some s.cache, stopFlushing := false, flushException := none }) s.cache rfl rfl rfl]
    · rw [hfl1, waitForFlush_some f c ({ s with cache := [], recency := [], pending := some s.cache, stopFlushing := false, flushException := none }) s.cache rfl rfl rfl]
  · have hf' : s.hasFlushed = false := (Bool.not_eq_true _).mp hf
    have hfl : flushOp f c false s =
        ({ s with cache := [], recency := [], pending := some s.cache,
                  hasFlushed := true }, none, [Ev.spawn]) :=
      flushOp_noflush f c s hcef hf'
    have hfl1 : (flushOp f c false s).1 =
        ({ s with cache := [], recency := [], pending := some s.cache,
                  hasFlushed := true }) := by
      rw [hfl]
    have hfle : (flushOp f c false s).2.1 = none := by rw [hfl]
    refine ⟨hfle, ?_, ?_, ?_, ?_⟩
    · rw [hfl1]
    · rw [hfl1, waitForFlush_some f c ({ s with cache := [], recency := [], pending := some s.cache, hasFlushed := true }) s.cache hstop hexc rfl]
    · rw [hfl1, waitForFlush_some f c ({ s with cache := [], recency := [], pending := some s.cache, hasFlushed := true }) s.cache hstop hexc rfl]
    · rw [hfl1, waitForFlush_some f c ({ s with cache := [], recency := [], pending := some s.cache, hasFlushed := true }) s.cache hstop hexc rfl]

/-- Witness for the amended C6: with a store fault injected for key 0, the
asynchronous flush itself raises nothing and the next synchronizing call
surfaces exactly the captured `storeFault 7`. -/
theorem C6_deferred_error_witness :
    (sOne.pending = none ∧ sOne.cache ≠ [] ∧
     (doFlush f1 c2 (flushOp f1 c2 false sOne).1.shelf sOne.cache).2 =
       some (Err.storeFault 7)) ∧
    ((flushOp f1 c2 false sOne).2.1 = none ∧
     (flushOp f1 c2 false sOne).1.pending = some sOne.cache ∧
     (waitForFlush f1 c2 false (flushOp f1 c2 false sOne).1).2.1 =
       (doFlush f1 c2 (flushOp f1 c2 false sOne).1.shelf sOne.cache).2 ∧
     (waitForFlush f1 c2 false (flushOp f1 c2 false sOne).1).1.flushException = none ∧
     (waitForFlush f1 c2 false (flushOp f1 c2 false sOne).1).1.pending = none) :=
  ⟨⟨by decide, by decide, by decide⟩,
   C6_deferred_error f1 c2 sOne (by decide) (by decide) (by decide) (by decide)⟩

/-- C5: for one container instance, no two background flush workers are ever
alive simultaneously — in every state reachable from a fresh container through
the modelled operations, every operation's thread-event trace obeys the
single-flight discipline: each worker `spawn` (from `flush`, `_partial_flush`
or `_flush_one`) happens at a moment with zero live workers, the spawning
path having first joined any outstanding worker via `_wait_for_flush`. -/
theorem C5_single_flight {K S V : Type} [DecidableEq K] [DecidableEq S]
    (f : K → Option Nat) (c : Codec K S) (limit : Nat) (s : Engine K S V)
    (hreach : Reach f c limit s) (op : OpC K V) :
    singleFlightOk (aliveCount s) ((runOp f c op s).2.2) = true :=
  runOp_sf f c op s (reach_invSF f c limit s hreach)

/-- Witness for C5: after three sets against `cache_limit = 2` (the third
spawns a partial-flush worker that stays outstanding), a forced `flush()`
joins that worker before spawning its own, and the discipline holds. -/
theorem C5_single_flight_witness :
    singleFlightOk
      (aliveCount ((runOp noFaults c4 (OpC.setc 2 2 7)
        ((runOp noFaults c4 (OpC.setc 1 1 6)
          ((runOp noFaults c4 (OpC.setc 0 0 5)
            (mkEngine 2 : Engine (Fin 4) Nat Nat)).1)).1)).1))
      ((runOp noFaults c4 (OpC.flushc false)
        ((runOp noFaults c4 (OpC.setc 2 2 7)
          ((runOp noFaults c4 (OpC.setc 1 1 6)
            ((runOp noFaults c4 (OpC.setc 0 0 5)
              (mkEngine 2 : Engine (Fin 4) Nat Nat)).1)).1)).1)).2.2) = true :=
  C5_single_flight noFaults c4 2 _
    (Reach.step (OpC.setc 2 2 7) (Reach.step (OpC.setc 1 1 6)
      (Reach.step (OpC.setc 0 0 5) Reach.base)))
    (OpC.flushc false)

end Claims

end Savemem
